import Mathlib

/-!
Verification of `md2project.py` (markdown-to-project-structure utility).

The development shallowly embeds the two components of the program:

* `extract_files_from_markdown` : three regular-expression matching
  strategies (bold filename, heading filename, backtick filename, each
  followed by a fenced code block) whose matches are folded into a
  path-to-content mapping, with a command-block filter;
* `create_project_structure` : materialization of the mapping under a base
  directory, tracking directories created, files written and per-file write
  errors.

Documents are embedded as `List Char`.  The Python regexes are embedded by
a continuation-passing backtracking matcher whose combinators mirror the
regex constructs used by the source one for one (literal, greedy star,
lazy star, greedy plus, greedy option, ordered alternation of literals),
so the embedding has exactly Python's leftmost-match backtracking
semantics for these patterns.  `re.findall` is embedded by `scanA`, which
tries a match at each position and resumes after each match.
-/

/-- Python's whitespace class for `str.strip()` and the regex class `\s`
(ASCII: space, tab, newline, carriage return, vertical tab, form feed). -/
def isPySpace (c : Char) : Bool :=
  c = ' ' || c = '\t' || c = '\n' || c = '\r' || c = '\x0b' || c = '\x0c'

/-- Python's regex class `\w` (ASCII fragment: letters, digits, underscore). -/
def isWordChar (c : Char) : Bool :=
  c.isAlphanum || c = '_'

/-- The backtick character (code point 96). -/
def backtickChar : Char := Char.ofNat 96

/-- Three backticks: the fence delimiter of the source regexes. -/
def fenceChars : List Char := [backtickChar, backtickChar, backtickChar]

/-- `Python str.strip()`: drop leading and trailing whitespace. -/
def pstrip (cs : List Char) : List Char :=
  ((cs.dropWhile isPySpace).reverse.dropWhile isPySpace).reverse

/-! ### Regex combinators (continuation-passing, backtracking) -/

/-- A literal, e.g. `\*\*` or `` ``` ``. -/
def litP {α : Type} (pat : List Char) (cs : List Char)
    (k : List Char → Option α) : Option α :=
  if pat.isPrefixOf cs then k (cs.drop pat.length) else none

/-- Greedy star over a character class (`\s*`): consume as much as
possible, then give characters back one at a time while the continuation
fails. -/
def starG {α : Type} (p : Char → Bool) : List Char → (List Char → Option α) → Option α
  | [], k => k []
  | c :: cs, k =>
    if p c then
      match starG p cs k with
      | some r => some r
      | none => k (c :: cs)
    else k (c :: cs)

/-- Lazy star over a character class (`.*?` with DOTALL): try the
continuation first, then consume one character at a time. -/
def lazyStar {α : Type} (p : Char → Bool) : List Char → (List Char → Option α) → Option α
  | cs, k =>
    match k cs with
    | some r => some r
    | none =>
      match cs with
      | [] => none
      | c :: cs' => if p c then lazyStar p cs' k else none

/-- Greedy plus over a character class (`\s+`, `[^\n]+`, `\w+`). -/
def plusG {α : Type} (p : Char → Bool) (cs : List Char)
    (k : List Char → Option α) : Option α :=
  match cs with
  | [] => none
  | c :: cs' => if p c then starG p cs' k else none

/-- Greedy option (`(?: ... )?`, `#?`): try the body, fall back to skipping it. -/
def optP {α : Type} (r : List Char → (List Char → Option α) → Option α)
    (cs : List Char) (k : List Char → Option α) : Option α :=
  match r cs k with
  | some res => some res
  | none => k cs

/-- Ordered alternation of literals (`(ts|tsx|js|...)`): try each
alternative in order, backtracking into the continuation. -/
def altLits {α : Type} : List (List Char) → List Char → (List Char → Option α) → Option α
  | [], _, _ => none
  | l :: ls, cs, k =>
    match litP l cs k with
    | some r => some r
    | none => altLits ls cs k

/-- Capture group: run `r`, pass the consumed text plus the rest to the
continuation.  The consumed text is recovered from the lengths, which is
sound because every combinator only ever hands suffixes to its
continuation. -/
def withCap {α : Type} (r : List Char → (List Char → Option α) → Option α)
    (cs : List Char) (k : List Char → List Char → Option α) : Option α :=
  r cs (fun rest => k (cs.take (cs.length - rest.length)) rest)

/-- The fixed extension alternation of all three source regexes, in source
order: `(ts|tsx|js|jsx|json|css|html|md|py|go|sh|yaml|yml|toml|txt|env|gitignore)`. -/
def EXTS : List (List Char) :=
  ["ts".toList, "tsx".toList, "js".toList, "jsx".toList, "json".toList,
   "css".toList, "html".toList, "md".toList, "py".toList, "go".toList,
   "sh".toList, "yaml".toList, "yml".toList, "toml".toList, "txt".toList,
   "env".toList, "gitignore".toList]

/-- The filename group shared by the three regexes, parameterized by the
excluded character class: `([^X]+\.(ts|tsx|...))`. -/
def extGroup {α : Type} (bad : Char → Bool) (cs : List Char)
    (k : List Char → Option α) : Option α :=
  plusG (fun c => !bad c) cs fun s1 =>
  litP ['.'] s1 fun s2 =>
  altLits EXTS s2 k

/-- A strategy match: captured path, captured body, rest of the document. -/
abbrev MatchRes := (List Char × List Char) × List Char

/-- Pattern 1 of the source:
`\*\*([^\*]+\.(EXT))\*\*\s*(?:\[.*?\])?\s*BBB(?:\w+)?\s*\n(.*?)BBB`
(with `BBB` the three-backtick fence), flags `DOTALL | MULTILINE`. -/
def matchP1 (cs : List Char) : Option MatchRes :=
  litP ['*', '*'] cs fun s1 =>
  withCap (extGroup (fun c => c = '*')) s1 fun path s2 =>
  litP ['*', '*'] s2 fun s3 =>
  starG isPySpace s3 fun s4 =>
  optP (fun u k' =>
    litP ['['] u fun u1 =>
    lazyStar (fun _ => true) u1 fun u2 =>
    litP [']'] u2 k') s4 fun s5 =>
  starG isPySpace s5 fun s6 =>
  litP fenceChars s6 fun s7 =>
  optP (fun u k' => plusG isWordChar u k') s7 fun s8 =>
  starG isPySpace s8 fun s9 =>
  litP ['\n'] s9 fun s10 =>
  withCap (lazyStar (fun _ => true)) s10 fun body s11 =>
  litP fenceChars s11 fun rest =>
  some ((path, body), rest)

/-- Pattern 2 of the source:
`###?\s+([^\n]+\.(EXT))\s*\nBBB(?:\w+)?\s*\n(.*?)BBB`. -/
def matchP2 (cs : List Char) : Option MatchRes :=
  litP ['#', '#'] cs fun s1 =>
  optP (fun u k' => litP ['#'] u k') s1 fun s2 =>
  plusG isPySpace s2 fun s3 =>
  withCap (extGroup (fun c => c = '\n')) s3 fun path s4 =>
  starG isPySpace s4 fun s5 =>
  litP ['\n'] s5 fun s6 =>
  litP fenceChars s6 fun s7 =>
  optP (fun u k' => plusG isWordChar u k') s7 fun s8 =>
  starG isPySpace s8 fun s9 =>
  litP ['\n'] s9 fun s10 =>
  withCap (lazyStar (fun _ => true)) s10 fun body s11 =>
  litP fenceChars s11 fun rest =>
  some ((path, body), rest)

/-- Pattern 3 of the source:
`` `([^`]+\.(EXT))` ``  followed by `\s*BBB(?:\w+)?\s*\n(.*?)BBB`. -/
def matchP3 (cs : List Char) : Option MatchRes :=
  litP [backtickChar] cs fun s1 =>
  withCap (extGroup (fun c => c = backtickChar)) s1 fun path s2 =>
  litP [backtickChar] s2 fun s3 =>
  starG isPySpace s3 fun s4 =>
  litP fenceChars s4 fun s5 =>
  optP (fun u k' => plusG isWordChar u k') s5 fun s6 =>
  starG isPySpace s6 fun s7 =>
  litP ['\n'] s7 fun s8 =>
  withCap (lazyStar (fun _ => true)) s8 fun body s9 =>
  litP fenceChars s9 fun rest =>
  some ((path, body), rest)

/-- `re.findall` scanning loop: try the matcher at the current position;
on success record the captures and resume after the match, otherwise
advance one character.  Fuel bounds the recursion; `findall` supplies the
document length, which suffices because every successful match of the
three patterns consumes at least one character. -/
def scanA (m : List Char → Option MatchRes) : Nat → List Char → List (List Char × List Char)
  | 0, _ => []
  | fuel + 1, cs =>
    match m cs with
    | some (pb, rest) => pb :: scanA m fuel rest
    | none =>
      match cs with
      | [] => []
      | _ :: cs' => scanA m fuel cs'

/-- All matches of one strategy over the document, in document order. -/
def findall (m : List Char → Option MatchRes) (cs : List Char) : List (List Char × List Char) :=
  scanA m cs.length cs

/-- All matches of the three strategies, in the source's fixed order:
pattern 1 (bold filename), then pattern 2 (heading), then pattern 3
(backtick filename). -/
def allMatches (cs : List Char) : List (List Char × List Char) :=
  findall matchP1 cs ++ findall matchP2 cs ++ findall matchP3 cs

/-! ### The command-block filter and the dictionary fold -/

/-- Python's substring test `needle in hay`. -/
def isSubstr (needle : List Char) : List Char → Bool
  | [] => needle.isPrefixOf []
  | c :: cs => needle.isPrefixOf (c :: cs) || isSubstr needle cs

/-- The shell-command indicators searched for in the first 100 characters
of a captured body: `['npm install', 'npm create', 'cd ', '#!/bin/bash']`. -/
def cmdIndicators : List (List Char) :=
  ["npm install".toList, "npm create".toList, "cd ".toList, "#!/bin/bash".toList]

/-- `any(cmd in content[:100] for cmd in [...])`. -/
def isCommandBlock (c : List Char) : Bool :=
  cmdIndicators.any (fun cmd => isSubstr cmd (c.take 100))

/-- `line.startswith(('#', 'npm', 'cd', 'mkdir'))`. -/
def isShellLike (line : List Char) : Bool :=
  ["#".toList, "npm".toList, "cd".toList, "mkdir".toList].any
    (fun p => p.isPrefixOf line)

/-- Python `content.split('\n')`. -/
def splitNL (c : List Char) : List (List Char) := c.splitOn '\n'

/-- The keep-decision of the command-block filter applied to a (stripped)
captured body: a body containing a shell indicator is kept only when it
has more than 5 lines and its first 5 lines are not all shell-like. -/
def keepBody (c : List Char) : Bool :=
  if isCommandBlock c then
    decide ((splitNL c).length > 5) && !((splitNL c).take 5).all isShellLike
  else true

/-- Keyed-map assignment `d[k] = v` (a Python dict entry, or a file write
on disk): replace the value in place if the key is present (keeping its
position), otherwise append the binding. -/
def insertA {kt vt : Type} [DecidableEq kt] (d : List (kt × vt)) (k : kt) (v : vt) :
    List (kt × vt) :=
  if d.any (fun e => e.1 = k) then
    d.map (fun e => if e.1 = k then (k, v) else e)
  else d ++ [(k, v)]

/-- Keyed-map lookup (a Python dict read, or a file read on disk). -/
def lookupA {kt vt : Type} [DecidableEq kt] (d : List (kt × vt)) (p : kt) : Option vt :=
  (d.find? (fun e => e.1 = p)).map (fun e => e.2)

/-- One iteration of the source's match loop: strip the captured path and
body, apply the command-block filter, store the entry on keep. -/
def processMatch (d : List (List Char × List Char)) (m : List Char × List Char) :
    List (List Char × List Char) :=
  let fp := pstrip m.1
  let c := pstrip m.2
  if isCommandBlock c then
    if decide ((splitNL c).length > 5) && !((splitNL c).take 5).all isShellLike then
      insertA d fp c
    else d
  else insertA d fp c

/-- `extract_files_from_markdown`, at the character-list level: fold all
matches of the three strategies, in strategy order then document order,
into the dictionary. -/
def extractL (cs : List Char) : List (List Char × List Char) :=
  (allMatches cs).foldl processMatch []

/-- `extract_files_from_markdown`: the extraction result as an association
list of strings (a Python dict: keys unique, insertion-ordered). -/
def extract_files_from_markdown (s : String) : List (String × String) :=
  (extractL s.toList).map (fun e => (String.mk e.1, String.mk e.2))

/-! ### The materializer (`create_project_structure`)

The filesystem is modelled as a set of directories plus a map from full
paths to file contents; paths are segment lists (a relative path joined
under the base directory, mirroring `Path(base_dir) / file_path` and
`full_path.parent` for the relative forward-slash paths of the extraction
result).  Write failures (`except Exception` around `open`/`write`) are
modelled by an oracle `fails` saying which full paths fail to write. -/

/-- Split a relative path into segments (`Path` components): the
character-level split on `/`, rejoined into segment strings. -/
def splitPath (s : String) : List String := (s.toList.splitOn '/').map String.mk

/-- A filesystem: existing directories, and file contents by full path. -/
structure FS where
  dirs : List (List String)
  files : List (List String × String)
deriving DecidableEq

/-- Add one directory if absent (`mkdir` with `exist_ok=True`). -/
def addDir (fs : FS) (d : List String) : FS :=
  if d ∈ fs.dirs then fs else { fs with dirs := fs.dirs ++ [d] }

/-- All nonempty prefixes of a path, shortest first. -/
def pathPrefixes (d : List String) : List (List String) :=
  (List.range d.length).map (fun i => d.take (i + 1))

/-- `mkdir(parents=True, exist_ok=True)`: create the directory and all its
missing ancestors; existing directories are untouched (never an error). -/
def mkdirParents (fs : FS) (d : List String) : FS :=
  (pathPrefixes d).foldl addDir fs

/-- The mutable state of one materializer run: the filesystem plus the
run's `dirs_created` set (insertion-ordered, duplicate-free by
construction), `files_created` list and per-file error reports. -/
structure MState where
  fs : FS
  dirsCreated : List (List String)
  filesCreated : List String
  errors : List String
deriving DecidableEq

/-- The full path of one entry: `base_path / file_path`. -/
def fullPath (base : List String) (k : String) : List String :=
  base ++ splitPath k

/-- The parent directory of one entry's full path (`full_path.parent`). -/
def parentDir (base : List String) (k : String) : List String :=
  (fullPath base k).dropLast

/-- The body of the materializer loop for one entry: create the parent
directory (and record it) when it is neither the base nor already
recorded, then attempt the write; a failing write is recorded as an error
and changes nothing else, a successful write stores the content and is
recorded in `files_created`. -/
def procEntry (fails : List String → Bool) (base : List String)
    (st : MState) (e : String × String) : MState :=
  let full := fullPath base e.1
  let parent := full.dropLast
  let st1 :=
    if parent ≠ base ∧ parent ∉ st.dirsCreated then
      { st with fs := mkdirParents st.fs parent,
                dirsCreated := st.dirsCreated ++ [parent] }
    else st
  if fails full then
    { st1 with errors := st1.errors ++ [e.1] }
  else
    { st1 with fs := { st1.fs with files := insertA st1.fs.files full e.2 },
               filesCreated := st1.filesCreated ++ [e.1] }

/-- Code-point lexicographic order on character lists: Python's string
comparison `a < b` (a proper prefix sorts first). -/
def listCharLt : List Char → List Char → Bool
  | [], [] => false
  | [], _ :: _ => true
  | _ :: _, [] => false
  | a :: as, b :: bs => a.val < b.val || (a = b && listCharLt as bs)

/-- Python string comparison `a < b`. -/
def strLt (a b : String) : Bool := listCharLt a.toList b.toList

/-- Python's `sorted` order on dict items: lexicographic on the
(path, content) tuple, values compared only for equal paths. -/
def entryLE (a b : String × String) : Prop :=
  strLt a.1 b.1 = true ∨ (a.1 = b.1 ∧ strLt b.2 a.2 = false)

instance : DecidableRel entryLE := fun _a _b =>
  inferInstanceAs (Decidable (_ ∨ _))

/-- `sorted(files_dict.items())`. -/
def sortEntries (l : List (String × String)) : List (String × String) :=
  List.insertionSort entryLE l

/-- One full materializer run: create the base directory, then process the
entries in sorted order starting from an empty tracking state. -/
def materialize (fails : List String → Bool) (dict : List (String × String))
    (base : List String) (fs0 : FS) : MState :=
  (sortEntries dict).foldl (procEntry fails base)
    ⟨mkdirParents fs0 base, [], [], []⟩

/-- `create_project_structure`: returns `(len(dirs_created), len(files_created))`. -/
def create_project_structure (fails : List String → Bool)
    (dict : List (String × String)) (base : List String) (fs0 : FS) : Nat × Nat :=
  let st := materialize fails dict base fs0
  (st.dirsCreated.length, st.filesCreated.length)

/-- Option choice: the first value when present, otherwise the second. -/
def optOr {α : Type} (a b : Option α) : Option α :=
  match a with
  | some x => some x
  | none => b

/-- The stripped bodies of those matches in `l` whose stripped path is `p`
and which pass the command-block filter, in processing order.  The final
mapping holds the last of these at key `p`. -/
def keptFor (p : List Char) (l : List (List Char × List Char)) : List (List Char) :=
  l.filterMap (fun m =>
    if pstrip m.1 = p ∧ keepBody (pstrip m.2) = true then some (pstrip m.2) else none)

/-- The successful writes to full path `q` performed by processing the
entry list `l`, in processing order; the file at `q` afterwards holds the
last of these (or its prior content when there are none). -/
def writesFor (fails : List String → Bool) (base : List String) (q : List String)
    (l : List (String × String)) : List String :=
  l.filterMap (fun e =>
    if fullPath base e.1 = q ∧ fails (fullPath base e.1) = false then some e.2 else none)

/-- Invariant of a materializer state: every directory recorded as created
exists on the filesystem, together with all its ancestors. -/
def dirsEnsured (st : MState) : Prop :=
  ∀ d ∈ st.dirsCreated, ∀ q ∈ pathPrefixes d, q ∈ st.fs.dirs

/-! ### Lemmas: the dictionary fold -/

theorem optOr_none_right {α : Type} (a : Option α) : optOr a none = a := by
  cases a <;> rfl

theorem optOr_assoc {α : Type} (a b c : Option α) :
    optOr (optOr a b) c = optOr a (optOr b c) := by
  cases a <;> rfl

theorem getLast?_cons_optOr {α : Type} (b : α) (xs : List α) :
    (b :: xs).getLast? = optOr xs.getLast? (some b) := by
  cases xs with
  | nil => rfl
  | cons y ys =>
    rw [List.getLast?_cons_cons]
    cases h : (y :: ys).getLast? with
    | none => exact absurd (List.getLast?_eq_none_iff.mp h) (by simp)
    | some z => rfl

/-- `processMatch` in terms of the keep-decision `keepBody`. -/
theorem processMatch_eq (d : List (List Char × List Char)) (m : List Char × List Char) :
    processMatch d m =
      if keepBody (pstrip m.2) then insertA d (pstrip m.1) (pstrip m.2) else d := by
  unfold processMatch keepBody
  by_cases h : isCommandBlock (pstrip m.2) <;> simp [h]

theorem lookupA_nil {kt vt : Type} [DecidableEq kt] (p : kt) :
    lookupA ([] : List (kt × vt)) p = none := rfl

theorem lookupA_cons {kt vt : Type} [DecidableEq kt] (e : kt × vt) (d : List (kt × vt))
    (p : kt) :
    lookupA (e :: d) p = if e.1 = p then some e.2 else lookupA d p := by
  by_cases h : e.1 = p <;> simp [lookupA, List.find?, h]

theorem optOr_none_left {α : Type} (b : Option α) : optOr none b = b := rfl

theorem lookupA_append {kt vt : Type} [DecidableEq kt] (d1 d2 : List (kt × vt)) (p : kt) :
    lookupA (d1 ++ d2) p = optOr (lookupA d1 p) (lookupA d2 p) := by
  induction d1 with
  | nil => rfl
  | cons e d ih =>
    rw [List.cons_append, lookupA_cons, lookupA_cons]
    by_cases he : e.1 = p
    · rw [if_pos he, if_pos he]; rfl
    · rw [if_neg he, if_neg he, ih]

theorem lookupA_replace_ne {kt vt : Type} [DecidableEq kt] (d : List (kt × vt))
    (k : kt) (v : vt) (p : kt) (hp : p ≠ k) :
    lookupA (d.map (fun e => if e.1 = k then (k, v) else e)) p = lookupA d p := by
  induction d with
  | nil => rfl
  | cons e d ih =>
    rw [List.map_cons, lookupA_cons, lookupA_cons]
    by_cases he : e.1 = k
    · have h1 : ((if e.1 = k then (k, v) else e) : kt × vt).1 = k := by
        rw [if_pos he]
      have h2 : ¬ ((if e.1 = k then (k, v) else e) : kt × vt).1 = p := by
        rw [h1]; exact fun h => hp h.symm
      have h3 : ¬ e.1 = p := by rw [he]; exact fun h => hp h.symm
      rw [if_neg h2, if_neg h3, ih]
    · rw [if_neg he]
      by_cases hep : e.1 = p
      · rw [if_pos hep, if_pos hep]
      · rw [if_neg hep, if_neg hep, ih]

theorem lookupA_replace_mem {kt vt : Type} [DecidableEq kt] (d : List (kt × vt))
    (k : kt) (v : vt) :
    d.any (fun e => decide (e.1 = k)) = true →
    lookupA (d.map (fun e => if e.1 = k then (k, v) else e)) k = some v := by
  induction d with
  | nil => intro h; simp at h
  | cons e d ih =>
    intro h
    rw [List.map_cons, lookupA_cons]
    by_cases he : e.1 = k
    · simp [he]
    · have h' : d.any (fun e => decide (e.1 = k)) = true := by
        rcases List.any_eq_true.mp h with ⟨x, hx, hxk⟩
        rcases List.mem_cons.mp hx with h1 | h1
        · exact absurd (of_decide_eq_true hxk) (h1 ▸ he)
        · exact List.any_eq_true.mpr ⟨x, h1, hxk⟩
      rw [if_neg (by rw [if_neg he]; exact he), ih h']

theorem lookupA_insertA {kt vt : Type} [DecidableEq kt] (d : List (kt × vt))
    (k : kt) (v : vt) (p : kt) :
    lookupA (insertA d k v) p = if p = k then some v else lookupA d p := by
  unfold insertA
  by_cases h : d.any (fun e => decide (e.1 = k)) = true
  · rw [if_pos h]
    by_cases hp : p = k
    · subst hp; rw [if_pos rfl]; exact lookupA_replace_mem d p v h
    · rw [if_neg hp]; exact lookupA_replace_ne d k v p hp
  · rw [if_neg h, lookupA_append]
    by_cases hp : p = k
    · subst hp
      have hnone : lookupA d p = none := by
        unfold lookupA
        have hfind : List.find? (fun e => decide (e.1 = p)) d = none :=
          List.find?_eq_none.mpr
            (fun x hx hcon => h (List.any_eq_true.mpr ⟨x, hx, hcon⟩))
        rw [hfind]
        rfl
      rw [hnone, optOr_none_left, if_pos rfl, lookupA_cons, if_pos rfl]
    · have h2 : lookupA [(k, v)] p = none := by
        rw [lookupA_cons, if_neg (fun hc => hp hc.symm)]; rfl
      rw [h2, optOr_none_right, if_neg hp]

theorem lookupA_foldl_processMatch (l : List (List Char × List Char))
    (d : List (List Char × List Char)) (p : List Char) :
    lookupA (l.foldl processMatch d) p = optOr (keptFor p l).getLast? (lookupA d p) := by
  induction l generalizing d with
  | nil => rfl
  | cons m l ih =>
    rw [List.foldl_cons, ih]
    by_cases hc : pstrip m.1 = p ∧ keepBody (pstrip m.2) = true
    · have hkept : keptFor p (m :: l) = pstrip m.2 :: keptFor p l := by
        simp [keptFor, List.filterMap_cons, hc]
      have hlook : lookupA (processMatch d m) p = some (pstrip m.2) := by
        rw [processMatch_eq, if_pos hc.2, lookupA_insertA, if_pos hc.1.symm]
      rw [hkept, getLast?_cons_optOr, optOr_assoc, hlook]
      have : optOr (some (pstrip m.2)) (lookupA d p) = some (pstrip m.2) := rfl
      rw [this]
    · have hkept : keptFor p (m :: l) = keptFor p l := by
        simp only [keptFor, List.filterMap_cons, if_neg hc]
      have hlook : lookupA (processMatch d m) p = lookupA d p := by
        rw [processMatch_eq]
        by_cases hk : keepBody (pstrip m.2) = true
        · have hne : p ≠ pstrip m.1 := by
            intro hpe
            exact hc ⟨hpe.symm, hk⟩
          rw [if_pos hk, lookupA_insertA, if_neg hne]
        · rw [if_neg hk]
      rw [hkept, hlook]

/-! ### Claim theorems: extraction (concrete and fold-order claims) -/

set_option maxRecDepth 10000

/-- C1 (counterexample): the claim that for every path matched by more than
one strategy the later-processed match's body is the one present in the
final mapping is false as stated.  In this document `run.sh` is matched by
the emphasized-filename strategy (pattern 1, body `real content line`) and
again later by the inline-code-span strategy (pattern 3, body
`npm install`), yet the final mapping holds the earlier body: the later
match is discarded by the command-block filter and therefore does not
overwrite. -/
theorem C1_counterexample :
    (("run.sh".toList, "real content line\n".toList) ∈
        findall matchP1
          ("**run.sh**\n```\nreal content line\n```\n`run.sh`\n```\nnpm install\n```".toList)) ∧
    (("run.sh".toList, "npm install\n".toList) ∈
        findall matchP3
          ("**run.sh**\n```\nreal content line\n```\n`run.sh`\n```\nnpm install\n```".toList)) ∧
    extract_files_from_markdown
        "**run.sh**\n```\nreal content line\n```\n`run.sh`\n```\nnpm install\n```" =
      [("run.sh", "real content line")] := by
  refine ⟨by decide, by decide, by rfl⟩

/-- C1 (amended): the Extractor applies the three strategies in the fixed
order emphasized-filename (pattern 1), heading (pattern 2),
inline-code-span (pattern 3), folding each strategy's matches into the
result in the order found; for every path, the entry present in the final
mapping is the body of the last match for that path among those that pass
the command-block filter (a filtered-out match overwrites nothing). -/
theorem C1_amended (doc : List Char) (p : List Char) :
    lookupA (extractL doc) p =
      (keptFor p (findall matchP1 doc ++ findall matchP2 doc ++
        findall matchP3 doc)).getLast? := by
  unfold extractL allMatches
  rw [lookupA_foldl_processMatch]
  exact optOr_none_right _

/-- C2 (counterexample): the claim covers headings with one or two leading
heading markers, but a heading line with a single marker (`# app.py`)
immediately followed by a fenced code block produces no heading-strategy
match and no extracted entry at all: the source regex `###?` requires at
least two `#` characters. -/
theorem C2_counterexample :
    findall matchP2 ("# app.py\n```\nhello extraction\n```".toList) = [] ∧
    extract_files_from_markdown "# app.py\n```\nhello extraction\n```" = [] := by
  refine ⟨by rfl, by rfl⟩

/-- C3: the command-block filter keeps a captured body whose first 100
characters contain a shell indicator exactly when the body has more than 5
lines and its first 5 lines are not all shell-like (comment, npm
invocation, cd, or mkdir); in particular a body whose first line is
`#!/bin/bash` with 8 lines where lines 2-5 are not all shell-like is kept,
and a body with `npm install` in its first line and fewer than 5 total
lines is discarded. -/
theorem C3_filter :
    (∀ c : List Char, isCommandBlock c = true →
      (keepBody c = true ↔
        (5 < (splitNL c).length ∧ ((splitNL c).take 5).all isShellLike = false))) ∧
    keepBody
      "#!/bin/bash\necho hello\necho b\necho c\necho d\necho e\necho f\necho g".toList
      = true ∧
    keepBody "npm install express\ncd app".toList = false := by
  refine ⟨?_, by decide, by decide⟩
  intro c h
  unfold keepBody
  rw [if_pos h]
  constructor
  · intro hb
    rcases (Bool.and_eq_true _ _).mp hb with ⟨h1, h2⟩
    exact ⟨of_decide_eq_true h1, by
      cases hall : ((splitNL c).take 5).all isShellLike with
      | false => rfl
      | true => rw [hall] at h2; simp at h2⟩
  · intro ⟨h1, h2⟩
    rw [Bool.and_eq_true]
    exact ⟨decide_eq_true h1, by rw [h2]; rfl⟩

/-- C3 witness: the filter theorem applied to the concrete command body
`cd app\nls` (a shell indicator in its first 100 characters). -/
theorem C3_filter_witness :
    isCommandBlock "cd app\nls".toList = true ∧
    (keepBody "cd app\nls".toList = true ↔
      (5 < (splitNL "cd app\nls".toList).length ∧
        ((splitNL "cd app\nls".toList).take 5).all isShellLike = false)) :=
  ⟨by decide, C3_filter.1 "cd app\nls".toList (by decide)⟩

/-- C4: for a document containing an emphasized filename `**app.py**`
immediately followed by a fenced code block whose body is `print("hi")`,
extraction returns exactly the mapping `{"app.py": "print(\"hi\")"}`. -/
theorem C4_example :
    extract_files_from_markdown "**app.py**\n```\nprint(\"hi\")\n```" =
      [("app.py", "print(\"hi\")")] := by
  rfl

/-- C5 (counterexample): extraction keys can be absolute paths, refuting
the claim that a key is never absolute: the document below yields the
single key `/etc/a.txt`, which begins with the path separator. -/
theorem C5_counterexample :
    extract_files_from_markdown "**/etc/a.txt**\n```\nhello words\n```" =
      [("/etc/a.txt", "hello words")] ∧
    "/etc/a.txt".toList.head? = some '/' := by
  refine ⟨by rfl, by rfl⟩

/-- C10: when the command-block filter discards a captured body, the
result mapping is left entirely unchanged, so an entry already stored for
the same path by an earlier strategy or earlier match is preserved. -/
theorem C10_discard_frame (d : List (List Char × List Char))
    (m : List Char × List Char) (h : keepBody (pstrip m.2) = false) :
    processMatch d m = d := by
  rw [processMatch_eq, if_neg]
  rw [h]
  exact Bool.false_ne_true

/-- C10 witness: a dictionary already holding `setup.sh`, and a discarded
later match for the same path (`npm install`, a one-line command block),
is left unchanged. -/
theorem C10_discard_frame_witness :
    keepBody (pstrip ("npm install\n".toList)) = false ∧
    processMatch [("setup.sh".toList, "echo done".toList)]
        ("setup.sh".toList, "npm install\n".toList) =
      [("setup.sh".toList, "echo done".toList)] :=
  ⟨by decide,
   C10_discard_frame [("setup.sh".toList, "echo done".toList)]
     ("setup.sh".toList, "npm install\n".toList) (by decide)⟩

/-! ### Lemmas: the materializer loop -/

theorem procEntry_filesCreated (fails : List String → Bool) (base : List String)
    (st : MState) (e : String × String) :
    (procEntry fails base st e).filesCreated =
      if fails (fullPath base e.1) then st.filesCreated
      else st.filesCreated ++ [e.1] := by
  unfold procEntry
  by_cases hd : ((fullPath base e.1).dropLast ≠ base ∧
      (fullPath base e.1).dropLast ∉ st.dirsCreated) <;>
    cases hf : fails (fullPath base e.1) <;> simp [hd, hf]

theorem procEntry_errors (fails : List String → Bool) (base : List String)
    (st : MState) (e : String × String) :
    (procEntry fails base st e).errors =
      if fails (fullPath base e.1) then st.errors ++ [e.1] else st.errors := by
  unfold procEntry
  by_cases hd : ((fullPath base e.1).dropLast ≠ base ∧
      (fullPath base e.1).dropLast ∉ st.dirsCreated) <;>
    cases hf : fails (fullPath base e.1) <;> simp [hd, hf]

theorem procEntry_dirsCreated (fails : List String → Bool) (base : List String)
    (st : MState) (e : String × String) :
    (procEntry fails base st e).dirsCreated =
      if parentDir base e.1 ≠ base ∧ parentDir base e.1 ∉ st.dirsCreated then
        st.dirsCreated ++ [parentDir base e.1]
      else st.dirsCreated := by
  unfold procEntry parentDir
  by_cases hd : ((fullPath base e.1).dropLast ≠ base ∧
      (fullPath base e.1).dropLast ∉ st.dirsCreated) <;>
    cases hf : fails (fullPath base e.1) <;> simp [hd, hf]

theorem foldl_filesCreated (fails : List String → Bool) (base : List String)
    (l : List (String × String)) :
    ∀ st : MState,
      (l.foldl (procEntry fails base) st).filesCreated =
        st.filesCreated ++ (l.filter (fun e => !fails (fullPath base e.1))).map Prod.fst := by
  induction l with
  | nil => intro st; simp
  | cons e l ih =>
    intro st
    rw [List.foldl_cons, ih, procEntry_filesCreated]
    cases hf : fails (fullPath base e.1) <;> simp [hf, List.filter_cons]

theorem foldl_errors (fails : List String → Bool) (base : List String)
    (l : List (String × String)) :
    ∀ st : MState,
      (l.foldl (procEntry fails base) st).errors =
        st.errors ++ (l.filter (fun e => fails (fullPath base e.1))).map Prod.fst := by
  induction l with
  | nil => intro st; simp
  | cons e l ih =>
    intro st
    rw [List.foldl_cons, ih, procEntry_errors]
    cases hf : fails (fullPath base e.1) <;> simp [hf, List.filter_cons]

theorem foldl_dirs (fails : List String → Bool) (base : List String)
    (l : List (String × String)) :
    ∀ st : MState, st.dirsCreated.Nodup →
      (l.foldl (procEntry fails base) st).dirsCreated.Nodup ∧
      (∀ d, d ∈ (l.foldl (procEntry fails base) st).dirsCreated ↔
        (d ∈ st.dirsCreated ∨
          (d ≠ base ∧ d ∈ l.map (fun e => parentDir base e.1)))) := by
  induction l with
  | nil => intro st hnd; simpa using hnd
  | cons e l ih =>
    intro st hnd
    rw [List.foldl_cons]
    by_cases hc : parentDir base e.1 ≠ base ∧ parentDir base e.1 ∉ st.dirsCreated
    · have hdc : (procEntry fails base st e).dirsCreated =
          st.dirsCreated ++ [parentDir base e.1] := by
        rw [procEntry_dirsCreated, if_pos hc]
      have hnd2 : (procEntry fails base st e).dirsCreated.Nodup := by
        rw [hdc]
        exact List.Nodup.append hnd (List.nodup_singleton _)
          (List.disjoint_singleton.mpr hc.2)
      obtain ⟨hn, hm⟩ := ih (procEntry fails base st e) hnd2
      refine ⟨hn, fun d => ?_⟩
      rw [hm d, hdc]
      simp only [List.mem_append, List.mem_singleton, List.mem_cons,
        List.mem_nil_iff, or_false, List.map_cons]
      constructor
      · rintro ((hA | hB) | ⟨hC, hD⟩)
        · exact Or.inl hA
        · exact Or.inr ⟨hB ▸ hc.1, Or.inl hB⟩
        · exact Or.inr ⟨hC, Or.inr hD⟩
      · rintro (hA | ⟨hC, (hB | hD)⟩)
        · exact Or.inl (Or.inl hA)
        · exact Or.inl (Or.inr hB)
        · exact Or.inr ⟨hC, hD⟩
    · have hdc : (procEntry fails base st e).dirsCreated = st.dirsCreated := by
        rw [procEntry_dirsCreated, if_neg hc]
      have hnd2 : (procEntry fails base st e).dirsCreated.Nodup := hdc ▸ hnd
      obtain ⟨hn, hm⟩ := ih (procEntry fails base st e) hnd2
      refine ⟨hn, fun d => ?_⟩
      rw [hm d, hdc]
      simp only [List.map_cons, List.mem_cons]
      have hfact : d = parentDir base e.1 → d ∈ st.dirsCreated ∨ d = base := by
        intro hde
        rcases not_and_or.mp hc with hc1 | hc2
        · push_neg at hc1
          exact Or.inr (hde.trans hc1)
        · push_neg at hc2
          exact Or.inl (hde ▸ hc2)
      constructor
      · rintro (hA | ⟨hC, hD⟩)
        · exact Or.inl hA
        · exact Or.inr ⟨hC, Or.inr hD⟩
      · rintro (hA | ⟨hC, (hB | hD)⟩)
        · exact Or.inl hA
        · rcases hfact hB with hmem | hbase
          · exact Or.inl hmem
          · exact absurd hbase hC
        · exact Or.inr ⟨hC, hD⟩

/-! ### Claim theorems: the materializer -/

/-- C6: during materialization, the entries whose write fails are exactly
the ones reported individually in the error list, in processing order;
they never enter `files_created` (so they do not increment the success
count), and every other entry is still processed and recorded, so one
failure aborts nothing. -/
theorem C6_write_failure (fails : List String → Bool) (dict : List (String × String))
    (base : List String) (fs0 : FS) :
    (materialize fails dict base fs0).filesCreated =
      ((sortEntries dict).filter (fun e => !fails (fullPath base e.1))).map Prod.fst ∧
    (materialize fails dict base fs0).errors =
      ((sortEntries dict).filter (fun e => fails (fullPath base e.1))).map Prod.fst := by
  unfold materialize
  constructor
  · rw [foldl_filesCreated]; rfl
  · rw [foldl_errors]; rfl

/-- C8: within one materializer run, each parent directory distinct from
the root is recorded as created exactly once (the record list is
duplicate-free, and a directory is recorded iff it is the non-root parent
of some entry); in particular materializing
`{"a/b/c.txt": "x", "a/b/d.txt": "y"}` yields exactly one creation record
for `a/b` under the root, whichever order the two entries are given in. -/
theorem C8_dirs_once (fails : List String → Bool) (dict : List (String × String))
    (base : List String) (fs0 : FS) :
    ((materialize fails dict base fs0).dirsCreated.Nodup ∧
      ∀ d, d ∈ (materialize fails dict base fs0).dirsCreated ↔
        (d ≠ base ∧ ∃ e ∈ dict, parentDir base e.1 = d)) ∧
    (materialize (fun _ => false) [("a/b/c.txt", "x"), ("a/b/d.txt", "y")]
        ["r"] ⟨[], []⟩).dirsCreated = [["r", "a", "b"]] ∧
    (materialize (fun _ => false) [("a/b/d.txt", "y"), ("a/b/c.txt", "x")]
        ["r"] ⟨[], []⟩).dirsCreated = [["r", "a", "b"]] := by
  refine ⟨⟨?_, ?_⟩, by decide, by decide⟩
  · exact (foldl_dirs fails base (sortEntries dict) _ List.nodup_nil).1
  · intro d
    have hm := (foldl_dirs fails base (sortEntries dict)
      ⟨mkdirParents fs0 base, [], [], []⟩ List.nodup_nil).2 d
    unfold materialize
    rw [hm]
    simp only [List.mem_nil_iff, false_or]
    constructor
    · rintro ⟨hC, hmem⟩
      rcases List.mem_map.mp hmem with ⟨e, he, hpe⟩
      exact ⟨hC, e, (List.perm_insertionSort entryLE dict).mem_iff.mp he, hpe⟩
    · rintro ⟨hC, e, he, hpe⟩
      exact ⟨hC, List.mem_map.mpr
        ⟨e, (List.perm_insertionSort entryLE dict).mem_iff.mpr he, hpe⟩⟩

/-- C9: the directories-created count of the materializer counts only the
immediate parent directories of entries — the root is never recorded, and
every recorded directory is the parent of some entry; in particular
materializing the single entry `{"a/b/c.txt": "x"}` into a fresh root
reports a count of 1, although the two directories `a` and `a/b` were both
created on disk, and neither `a` nor the root is recorded. -/
theorem C9_count_immediate_parents (fails : List String → Bool)
    (dict : List (String × String)) (base : List String) (fs0 : FS) :
    (base ∉ (materialize fails dict base fs0).dirsCreated ∧
      ∀ d ∈ (materialize fails dict base fs0).dirsCreated,
        ∃ e ∈ dict, parentDir base e.1 = d) ∧
    (create_project_structure (fun _ => false) [("a/b/c.txt", "x")] ["out"] ⟨[], []⟩).1
      = 1 ∧
    ["out", "a"] ∈
      (materialize (fun _ => false) [("a/b/c.txt", "x")] ["out"] ⟨[], []⟩).fs.dirs ∧
    ["out", "a", "b"] ∈
      (materialize (fun _ => false) [("a/b/c.txt", "x")] ["out"] ⟨[], []⟩).fs.dirs ∧
    ["out", "a"] ∉
      (materialize (fun _ => false) [("a/b/c.txt", "x")] ["out"] ⟨[], []⟩).dirsCreated ∧
    ["out"] ∉
      (materialize (fun _ => false) [("a/b/c.txt", "x")] ["out"] ⟨[], []⟩).dirsCreated := by
  have hm := fun d => (foldl_dirs fails base (sortEntries dict)
    ⟨mkdirParents fs0 base, [], [], []⟩ List.nodup_nil).2 d
  refine ⟨⟨?_, ?_⟩, by decide, by decide, by decide, by decide, by decide⟩
  · intro hmem
    unfold materialize at hmem
    rw [hm base] at hmem
    simp at hmem
  · intro d hd
    unfold materialize at hd
    rw [hm d] at hd
    simp only [List.mem_nil_iff, false_or] at hd
    rcases List.mem_map.mp hd.2 with ⟨e, he, hpe⟩
    exact ⟨e, (List.perm_insertionSort entryLE dict).mem_iff.mp he, hpe⟩

/-! ### Lemmas: filesystem primitives and run-2 stability -/

theorem addDir_files (fs : FS) (d : List String) : (addDir fs d).files = fs.files := by
  unfold addDir; split <;> rfl

theorem foldl_addDir_files (ps : List (List String)) :
    ∀ fs : FS, (ps.foldl addDir fs).files = fs.files := by
  induction ps with
  | nil => intro fs; rfl
  | cons p ps ih => intro fs; rw [List.foldl_cons, ih, addDir_files]

theorem mkdirParents_files (fs : FS) (d : List String) :
    (mkdirParents fs d).files = fs.files :=
  foldl_addDir_files _ fs

theorem addDir_mem_mono (fs : FS) (d q : List String) (h : q ∈ fs.dirs) :
    q ∈ (addDir fs d).dirs := by
  unfold addDir
  split
  · exact h
  · exact List.mem_append_left _ h

theorem addDir_self_mem (fs : FS) (d : List String) : d ∈ (addDir fs d).dirs := by
  unfold addDir
  split
  · assumption
  · exact List.mem_append_right _ (List.mem_singleton.mpr rfl)

theorem foldl_addDir_mem_mono (ps : List (List String)) :
    ∀ (fs : FS) (q : List String), q ∈ fs.dirs → q ∈ (ps.foldl addDir fs).dirs := by
  induction ps with
  | nil => intro fs q h; exact h
  | cons p ps ih =>
    intro fs q h
    rw [List.foldl_cons]
    exact ih _ q (addDir_mem_mono fs p q h)

theorem mkdirParents_mono (fs : FS) (d q : List String) (h : q ∈ fs.dirs) :
    q ∈ (mkdirParents fs d).dirs :=
  foldl_addDir_mem_mono _ fs q h

theorem foldl_addDir_mem_self (ps : List (List String)) :
    ∀ (fs : FS) (q : List String), q ∈ ps → q ∈ (ps.foldl addDir fs).dirs := by
  induction ps with
  | nil => intro fs q h; exact absurd h (List.not_mem_nil q)
  | cons p ps ih =>
    intro fs q h
    rw [List.foldl_cons]
    rcases List.mem_cons.mp h with h | h
    · exact foldl_addDir_mem_mono ps _ q (h ▸ addDir_self_mem fs p)
    · exact ih _ q h

theorem mkdirParents_mem_pref (fs : FS) (d q : List String) (h : q ∈ pathPrefixes d) :
    q ∈ (mkdirParents fs d).dirs :=
  foldl_addDir_mem_self _ fs q h

theorem addDir_noop (fs : FS) (d : List String) (h : d ∈ fs.dirs) : addDir fs d = fs := by
  unfold addDir
  rw [if_pos h]

theorem foldl_addDir_noop (ps : List (List String)) :
    ∀ fs : FS, (∀ q ∈ ps, q ∈ fs.dirs) → ps.foldl addDir fs = fs := by
  induction ps with
  | nil => intro fs _; rfl
  | cons p ps ih =>
    intro fs h
    rw [List.foldl_cons, addDir_noop fs p (h p (List.mem_cons_self p ps))]
    exact ih fs (fun q hq => h q (List.mem_cons_of_mem p hq))

theorem mkdirParents_noop (fs : FS) (d : List String)
    (h : ∀ q ∈ pathPrefixes d, q ∈ fs.dirs) : mkdirParents fs d = fs :=
  foldl_addDir_noop _ fs h

theorem procEntry_fs (fails : List String → Bool) (base : List String)
    (st : MState) (e : String × String) :
    (procEntry fails base st e).fs =
      (let fs1 := if parentDir base e.1 ≠ base ∧ parentDir base e.1 ∉ st.dirsCreated
        then mkdirParents st.fs (parentDir base e.1) else st.fs
      if fails (fullPath base e.1) then fs1
      else { fs1 with files := insertA fs1.files (fullPath base e.1) e.2 }) := by
  unfold procEntry parentDir
  by_cases hd : ((fullPath base e.1).dropLast ≠ base ∧
      (fullPath base e.1).dropLast ∉ st.dirsCreated) <;>
    cases hf : fails (fullPath base e.1) <;> simp [hd, hf]

theorem procEntry_fsdirs (fails : List String → Bool) (base : List String)
    (st : MState) (e : String × String) :
    (procEntry fails base st e).fs.dirs =
      if parentDir base e.1 ≠ base ∧ parentDir base e.1 ∉ st.dirsCreated then
        (mkdirParents st.fs (parentDir base e.1)).dirs
      else st.fs.dirs := by
  unfold procEntry parentDir
  by_cases hd : ((fullPath base e.1).dropLast ≠ base ∧
      (fullPath base e.1).dropLast ∉ st.dirsCreated) <;>
    cases hf : fails (fullPath base e.1) <;> simp [hd, hf]

theorem procEntry_files (fails : List String → Bool) (base : List String)
    (st : MState) (e : String × String) :
    (procEntry fails base st e).fs.files =
      if fails (fullPath base e.1) then st.fs.files
      else insertA st.fs.files (fullPath base e.1) e.2 := by
  unfold procEntry
  by_cases hd : ((fullPath base e.1).dropLast ≠ base ∧
      (fullPath base e.1).dropLast ∉ st.dirsCreated) <;>
    cases hf : fails (fullPath base e.1) <;> simp [hd, hf, mkdirParents_files]

theorem procEntry_fsdirs_mono (fails : List String → Bool) (base : List String)
    (st : MState) (e : String × String) (q : List String) (h : q ∈ st.fs.dirs) :
    q ∈ (procEntry fails base st e).fs.dirs := by
  rw [procEntry_fsdirs]
  split
  · exact mkdirParents_mono _ _ q h
  · exact h

theorem foldl_fsdirs_mono (fails : List String → Bool) (base : List String)
    (l : List (String × String)) :
    ∀ (st : MState) (q : List String), q ∈ st.fs.dirs →
      q ∈ (l.foldl (procEntry fails base) st).fs.dirs := by
  induction l with
  | nil => intro st q h; exact h
  | cons e l ih =>
    intro st q h
    rw [List.foldl_cons]
    exact ih _ q (procEntry_fsdirs_mono fails base st e q h)

theorem procEntry_dirsEnsured (fails : List String → Bool) (base : List String)
    (st : MState) (e : String × String) (h : dirsEnsured st) :
    dirsEnsured (procEntry fails base st e) := by
  intro d hd q hq
  rw [procEntry_dirsCreated] at hd
  by_cases hc : parentDir base e.1 ≠ base ∧ parentDir base e.1 ∉ st.dirsCreated
  · rw [if_pos hc] at hd
    rw [procEntry_fsdirs, if_pos hc]
    rcases List.mem_append.mp hd with hd | hd
    · exact mkdirParents_mono _ _ q (h d hd q hq)
    · rw [List.mem_singleton.mp hd] at hq
      exact mkdirParents_mem_pref _ _ q hq
  · rw [if_neg hc] at hd
    rw [procEntry_fsdirs, if_neg hc]
    exact h d hd q hq

theorem foldl_dirsEnsured (fails : List String → Bool) (base : List String)
    (l : List (String × String)) :
    ∀ st : MState, dirsEnsured st →
      dirsEnsured (l.foldl (procEntry fails base) st) := by
  induction l with
  | nil => intro st h; exact h
  | cons e l ih =>
    intro st h
    rw [List.foldl_cons]
    exact ih _ (procEntry_dirsEnsured fails base st e h)

theorem foldl_files_lookup (fails : List String → Bool) (base : List String)
    (l : List (String × String)) :
    ∀ (st : MState) (q : List String),
      lookupA (l.foldl (procEntry fails base) st).fs.files q =
        optOr (writesFor fails base q l).getLast? (lookupA st.fs.files q) := by
  induction l with
  | nil => intro st q; rfl
  | cons e l ih =>
    intro st q
    rw [List.foldl_cons, ih]
    by_cases hc : fullPath base e.1 = q ∧ fails (fullPath base e.1) = false
    · have hfq : fails q = false := hc.1 ▸ hc.2
      have hw : writesFor fails base q (e :: l) = e.2 :: writesFor fails base q l := by
        simp [writesFor, List.filterMap_cons, hc.1, hfq]
      have hlook : lookupA (procEntry fails base st e).fs.files q = some e.2 := by
        rw [procEntry_files, if_neg (by rw [hc.2]; exact Bool.false_ne_true),
          lookupA_insertA, if_pos hc.1.symm]
      rw [hw, getLast?_cons_optOr, optOr_assoc, hlook]
      rfl
    · have hw : writesFor fails base q (e :: l) = writesFor fails base q l := by
        simp only [writesFor, List.filterMap_cons, if_neg hc]
      have hlook : lookupA (procEntry fails base st e).fs.files q =
          lookupA st.fs.files q := by
        rw [procEntry_files]
        cases hf : fails (fullPath base e.1) with
        | true => rfl
        | false =>
          have hne : q ≠ fullPath base e.1 := by
            intro hqe
            exact hc ⟨hqe.symm, hf⟩
          rw [if_neg Bool.false_ne_true, lookupA_insertA, if_neg hne]
      rw [hw, hlook]

theorem insertA_keys {kt vt : Type} [DecidableEq kt] (l : List (kt × vt)) (k : kt) (v : vt)
    (h : (l.map Prod.fst).Nodup) : ((insertA l k v).map Prod.fst).Nodup := by
  unfold insertA
  by_cases ha : l.any (fun e => decide (e.1 = k)) = true
  · rw [if_pos ha, List.map_map]
    have hmc : ∀ e ∈ l,
        (Prod.fst ∘ fun e : kt × vt => if e.1 = k then (k, v) else e) e
          = Prod.fst e := by
      intro e _
      simp only [Function.comp_apply]
      by_cases he : e.1 = k
      · rw [if_pos he, he]
      · rw [if_neg he]
    rw [List.map_congr_left hmc]
    exact h
  · rw [if_neg ha, List.map_append]
    refine List.Nodup.append h (List.nodup_singleton _) ?_
    intro x hx hx2
    rw [List.mem_singleton.mp hx2] at hx
    rcases List.mem_map.mp hx with ⟨e, he, hek⟩
    simp only [List.any_eq_true, not_exists] at ha
    push_neg at ha
    exact absurd (decide_eq_true hek) (ha e he)

theorem lookupA_some_any {kt vt : Type} [DecidableEq kt] (l : List (kt × vt))
    (k : kt) (v : vt) (h : lookupA l k = some v) :
    l.any (fun e => decide (e.1 = k)) = true := by
  unfold lookupA at h
  cases hf : l.find? (fun e => decide (e.1 = k)) with
  | none => rw [hf] at h; exact absurd h (by simp)
  | some x =>
    rcases List.find?_eq_some.mp hf with ⟨hpx, _⟩
    exact List.any_eq_true.mpr ⟨x, List.mem_of_find?_eq_some hf, hpx⟩

theorem map_replace_id {kt vt : Type} [DecidableEq kt] (l : List (kt × vt))
    (k : kt) (v : vt) (h : ∀ e ∈ l, e.1 ≠ k) :
    l.map (fun e => if e.1 = k then (k, v) else e) = l := by
  induction l with
  | nil => rfl
  | cons e l ih =>
    rw [List.map_cons, if_neg (h e (List.mem_cons_self e l)),
      ih (fun x hx => h x (List.mem_cons_of_mem e hx))]

theorem insertA_noop {kt vt : Type} [DecidableEq kt] (l : List (kt × vt))
    (k : kt) (v : vt) (hnd : (l.map Prod.fst).Nodup)
    (hlk : lookupA l k = some v) : insertA l k v = l := by
  induction l with
  | nil => exact absurd hlk (by simp [lookupA])
  | cons e l ih =>
    have hany := lookupA_some_any _ k v hlk
    unfold insertA
    rw [if_pos hany, List.map_cons]
    by_cases he : e.1 = k
    · have hev : e.2 = v := by
        rw [lookupA_cons, if_pos he] at hlk
        exact Option.some.inj hlk
      have hemk : ((k, v) : kt × vt) = e := by
        rw [← he, ← hev]
      have htail : ∀ x ∈ l, x.1 ≠ k := by
        intro x hx hxk
        rw [List.map_cons] at hnd
        exact (List.nodup_cons.mp hnd).1 (he ▸ hxk ▸ List.mem_map_of_mem Prod.fst hx)
      rw [if_pos he, map_replace_id l k v htail, hemk]
    · have hlk' : lookupA l k = some v := by
        rw [lookupA_cons, if_neg he] at hlk
        exact hlk
      have hnd' : (l.map Prod.fst).Nodup := by
        rw [List.map_cons] at hnd
        exact (List.nodup_cons.mp hnd).2
      have := ih hnd' hlk'
      unfold insertA at this
      rw [if_pos (lookupA_some_any _ k v hlk')] at this
      rw [if_neg he, this]

theorem writesFor_nil_of {fails : List String → Bool} {base : List String}
    {q : List String} {l : List (String × String)}
    (h : ∀ x ∈ l, fullPath base x.1 ≠ q) : writesFor fails base q l = [] := by
  unfold writesFor
  rw [List.filterMap_eq_nil_iff]
  intro e he
  rw [if_neg]
  intro hc
  exact h e he hc.1

theorem writesFor_unique (fails : List String → Bool) (base : List String)
    (l : List (String × String)) :
    ∀ e ∈ l, (l.map (fun x => fullPath base x.1)).Nodup →
      fails (fullPath base e.1) = false →
      writesFor fails base (fullPath base e.1) l = [e.2] := by
  induction l with
  | nil => intro e he; exact absurd he (List.not_mem_nil e)
  | cons x l ih =>
    intro e he hnd hf
    have hnd' := List.nodup_cons.mp (by rw [List.map_cons] at hnd; exact hnd)
    rcases List.mem_cons.mp he with he | he
    · subst he
      have hrest : writesFor fails base (fullPath base e.1) l = [] := by
        apply writesFor_nil_of
        intro y hy hyq
        exact hnd'.1 (hyq ▸ List.mem_map_of_mem (fun x => fullPath base x.1) hy)
      unfold writesFor at hrest ⊢
      rw [List.filterMap_cons, if_pos ⟨rfl, hf⟩, hrest]
    · have hxq : fullPath base x.1 ≠ fullPath base e.1 := by
        intro hc
        exact hnd'.1 (hc ▸ List.mem_map_of_mem (fun x => fullPath base x.1) he)
      have := ih e he hnd'.2 hf
      unfold writesFor at this ⊢
      rw [List.filterMap_cons, if_neg (fun hc => hxq hc.1), this]

theorem foldl_files_keys (fails : List String → Bool) (base : List String)
    (l : List (String × String)) :
    ∀ st : MState, (st.fs.files.map Prod.fst).Nodup →
      ((l.foldl (procEntry fails base) st).fs.files.map Prod.fst).Nodup := by
  induction l with
  | nil => intro st h; exact h
  | cons e l ih =>
    intro st h
    rw [List.foldl_cons]
    apply ih
    rw [procEntry_files]
    split
    · exact h
    · exact insertA_keys _ _ _ h

theorem foldl_tracking (fails : List String → Bool) (base : List String)
    (l : List (String × String)) :
    ∀ st st' : MState, st.dirsCreated = st'.dirsCreated →
      st.filesCreated = st'.filesCreated → st.errors = st'.errors →
      (l.foldl (procEntry fails base) st).dirsCreated =
        (l.foldl (procEntry fails base) st').dirsCreated ∧
      (l.foldl (procEntry fails base) st).filesCreated =
        (l.foldl (procEntry fails base) st').filesCreated ∧
      (l.foldl (procEntry fails base) st).errors =
        (l.foldl (procEntry fails base) st').errors := by
  induction l with
  | nil => intro st st' h1 h2 h3; exact ⟨h1, h2, h3⟩
  | cons e l ih =>
    intro st st' h1 h2 h3
    rw [List.foldl_cons, List.foldl_cons]
    apply ih
    · rw [procEntry_dirsCreated, procEntry_dirsCreated, h1]
    · rw [procEntry_filesCreated, procEntry_filesCreated, h2]
    · rw [procEntry_errors, procEntry_errors, h3]

theorem run2_fs_constant (fails : List String → Bool) (base : List String) (R : FS)
    (hkeysR : (R.files.map Prod.fst).Nodup)
    (l : List (String × String)) :
    ∀ st : MState, st.fs = R →
      (∀ e ∈ l, parentDir base e.1 ≠ base →
        ∀ q ∈ pathPrefixes (parentDir base e.1), q ∈ R.dirs) →
      (∀ e ∈ l, fails (fullPath base e.1) = false →
        lookupA R.files (fullPath base e.1) = some e.2) →
      (l.foldl (procEntry fails base) st).fs = R := by
  induction l with
  | nil => intro st h _ _; exact h
  | cons e l ih =>
    intro st hfs hdirs hfiles
    rw [List.foldl_cons]
    have hstep : (procEntry fails base st e).fs = R := by
      have hfs1 : (if parentDir base e.1 ≠ base ∧ parentDir base e.1 ∉ st.dirsCreated
          then mkdirParents st.fs (parentDir base e.1) else st.fs) = R := by
        split
        · next hc =>
          rw [hfs]
          exact mkdirParents_noop R _
            (hdirs e (List.mem_cons_self e l) hc.1)
        · exact hfs
      rw [procEntry_fs]
      show (if fails (fullPath base e.1) = true then _ else _) = R
      cases hf : fails (fullPath base e.1) with
      | true => simpa using hfs1
      | false =>
        simp only [Bool.false_eq_true, if_false]
        rw [hfs1]
        have : insertA R.files (fullPath base e.1) e.2 = R.files :=
          insertA_noop _ _ _ hkeysR
            (hfiles e (List.mem_cons_self e l) hf)
        rw [this]
    exact ih _ hstep
      (fun x hx => hdirs x (List.mem_cons_of_mem e hx))
      (fun x hx => hfiles x (List.mem_cons_of_mem e hx))

/-- C7: running the materializer twice with the same mapping, failure
behaviour and root produces the same final filesystem (file contents and
directories) and the same success counts both times; pre-existing
directories and files from the first run are not errors, and existing
files are overwritten with identical content.  Hypotheses: the mapping's
keys denote distinct full paths (it is a dict) and the starting
filesystem has no duplicate file paths. -/
theorem C7_idempotent (fails : List String → Bool) (dict : List (String × String))
    (base : List String) (fs0 : FS)
    (hkeys : (dict.map (fun e => fullPath base e.1)).Nodup)
    (hfsk : (fs0.files.map Prod.fst).Nodup) :
    (materialize fails dict base (materialize fails dict base fs0).fs).fs =
      (materialize fails dict base fs0).fs ∧
    (materialize fails dict base (materialize fails dict base fs0).fs).dirsCreated.length =
      (materialize fails dict base fs0).dirsCreated.length ∧
    (materialize fails dict base (materialize fails dict base fs0).fs).filesCreated.length =
      (materialize fails dict base fs0).filesCreated.length := by
  have hsortednd : ((sortEntries dict).map (fun e => fullPath base e.1)).Nodup := by
    have hperm : List.Perm ((sortEntries dict).map (fun e => fullPath base e.1))
        (dict.map (fun e => fullPath base e.1)) :=
      (List.perm_insertionSort entryLE dict).map _
    exact hperm.nodup_iff.mpr hkeys
  have hr1keys : ((materialize fails dict base fs0).fs.files.map Prod.fst).Nodup := by
    unfold materialize
    apply foldl_files_keys
    show ((mkdirParents fs0 base).files.map Prod.fst).Nodup
    rw [mkdirParents_files]
    exact hfsk
  have hr1ens : dirsEnsured (materialize fails dict base fs0) := by
    unfold materialize
    apply foldl_dirsEnsured
    intro d hd q hq
    exact absurd hd (List.not_mem_nil d)
  have hr1basepref : ∀ q ∈ pathPrefixes base,
      q ∈ (materialize fails dict base fs0).fs.dirs := by
    intro q hq
    unfold materialize
    apply foldl_fsdirs_mono
    exact mkdirParents_mem_pref fs0 base q hq
  have hr1dirs : ∀ e ∈ sortEntries dict, parentDir base e.1 ≠ base →
      ∀ q ∈ pathPrefixes (parentDir base e.1),
        q ∈ (materialize fails dict base fs0).fs.dirs := by
    intro e he hne q hq
    have hmem : parentDir base e.1 ∈ (materialize fails dict base fs0).dirsCreated := by
      unfold materialize
      rw [(foldl_dirs fails base (sortEntries dict)
        ⟨mkdirParents fs0 base, [], [], []⟩ List.nodup_nil).2]
      exact Or.inr ⟨hne, List.mem_map_of_mem _ he⟩
    exact hr1ens _ hmem q hq
  have hr1files : ∀ e ∈ sortEntries dict, fails (fullPath base e.1) = false →
      lookupA (materialize fails dict base fs0).fs.files (fullPath base e.1) =
        some e.2 := by
    intro e he hf
    unfold materialize
    rw [foldl_files_lookup,
      writesFor_unique fails base (sortEntries dict) e he hsortednd hf]
    rfl
  have hstepA : mkdirParents (materialize fails dict base fs0).fs base =
      (materialize fails dict base fs0).fs :=
    mkdirParents_noop _ base hr1basepref
  have hfs2 : (materialize fails dict base (materialize fails dict base fs0).fs).fs =
      (materialize fails dict base fs0).fs := by
    show ((sortEntries dict).foldl (procEntry fails base)
      ⟨mkdirParents (materialize fails dict base fs0).fs base, [], [], []⟩).fs = _
    exact run2_fs_constant fails base _ hr1keys (sortEntries dict) _ hstepA
      hr1dirs hr1files
  have htrack := foldl_tracking fails base (sortEntries dict)
    (⟨mkdirParents (materialize fails dict base fs0).fs base, [], [], []⟩ : MState)
    (⟨mkdirParents fs0 base, [], [], []⟩ : MState) rfl rfl rfl
  exact ⟨hfs2, congrArg List.length htrack.1, congrArg List.length htrack.2.1⟩

/-- C7 witness: a concrete two-file mapping materialized twice into the
root `r` of an empty filesystem, with no write failures. -/
theorem C7_idempotent_witness :
    (([("a/b/c.txt", "x"), ("d.txt", "q")].map
        (fun e => fullPath ["r"] e.1)).Nodup) ∧
    (((⟨[], []⟩ : FS).files.map Prod.fst).Nodup) ∧
    ((materialize (fun _ => false) [("a/b/c.txt", "x"), ("d.txt", "q")] ["r"]
        (materialize (fun _ => false) [("a/b/c.txt", "x"), ("d.txt", "q")] ["r"]
          ⟨[], []⟩).fs).fs =
      (materialize (fun _ => false) [("a/b/c.txt", "x"), ("d.txt", "q")] ["r"]
        ⟨[], []⟩).fs ∧
    (materialize (fun _ => false) [("a/b/c.txt", "x"), ("d.txt", "q")] ["r"]
        (materialize (fun _ => false) [("a/b/c.txt", "x"), ("d.txt", "q")] ["r"]
          ⟨[], []⟩).fs).dirsCreated.length =
      (materialize (fun _ => false) [("a/b/c.txt", "x"), ("d.txt", "q")] ["r"]
        ⟨[], []⟩).dirsCreated.length ∧
    (materialize (fun _ => false) [("a/b/c.txt", "x"), ("d.txt", "q")] ["r"]
        (materialize (fun _ => false) [("a/b/c.txt", "x"), ("d.txt", "q")] ["r"]
          ⟨[], []⟩).fs).filesCreated.length =
      (materialize (fun _ => false) [("a/b/c.txt", "x"), ("d.txt", "q")] ["r"]
        ⟨[], []⟩).filesCreated.length) :=
  ⟨by decide, by decide,
   C7_idempotent (fun _ => false) [("a/b/c.txt", "x"), ("d.txt", "q")] ["r"]
     ⟨[], []⟩ (by decide) (by decide)⟩

/-! ### Lemmas: combinator soundness (structure of successful matches) -/

theorem starG_sound {α : Type} (p : Char → Bool) :
    ∀ (cs : List Char) (k : List Char → Option α) (r : α),
      starG p cs k = some r →
      ∃ a b, cs = a ++ b ∧ (∀ c ∈ a, p c = true) ∧ k b = some r := by
  intro cs
  induction cs with
  | nil =>
    intro k r h
    exact ⟨[], [], rfl, by simp, h⟩
  | cons c cs ih =>
    intro k r h
    unfold starG at h
    by_cases hp : p c
    · rw [if_pos hp] at h
      cases hg : starG p cs k with
      | some r' =>
        rw [hg] at h
        obtain ⟨a, b, hab, hall, hk⟩ := ih k r' hg
        refine ⟨c :: a, b, by rw [hab]; rfl, ?_, by rw [hk, ← h]⟩
        intro x hx
        rcases List.mem_cons.mp hx with hx | hx
        · exact hx ▸ hp
        · exact hall x hx
      | none =>
        rw [hg] at h
        exact ⟨[], c :: cs, rfl, by simp, h⟩
    · rw [if_neg hp] at h
      exact ⟨[], c :: cs, rfl, by simp, h⟩

theorem lazyStar_eq {α : Type} (p : Char → Bool) (cs : List Char)
    (k : List Char → Option α) :
    lazyStar p cs k =
      (match k cs with
       | some r => some r
       | none =>
         match cs with
         | [] => none
         | c :: cs' => if p c then lazyStar p cs' k else none) := by
  cases cs with
  | nil => exact lazyStar.eq_1 p k
  | cons c cs => exact lazyStar.eq_2 p k c cs

theorem lazyStar_sound {α : Type} (p : Char → Bool) :
    ∀ (cs : List Char) (k : List Char → Option α) (r : α),
      lazyStar p cs k = some r →
      ∃ a b, cs = a ++ b ∧ (∀ c ∈ a, p c = true) ∧ k b = some r := by
  intro cs
  induction cs with
  | nil =>
    intro k r h
    rw [lazyStar_eq] at h
    cases hk : k [] with
    | some r' =>
      rw [hk] at h
      have h' : (some r' : Option α) = some r := h
      exact ⟨[], [], rfl, by simp, by rw [hk, h']⟩
    | none =>
      rw [hk] at h
      exact absurd (h : (none : Option α) = some r) (by simp)
  | cons c cs ih =>
    intro k r h
    rw [lazyStar_eq] at h
    cases hk : k (c :: cs) with
    | some r' =>
      rw [hk] at h
      have h' : (some r' : Option α) = some r := h
      exact ⟨[], c :: cs, rfl, by simp, by rw [hk, h']⟩
    | none =>
      rw [hk] at h
      have h' : (if p c = true then lazyStar p cs k else none) = some r := h
      by_cases hp : p c = true
      · rw [if_pos hp] at h'
        obtain ⟨a, b, hab, hall, hka⟩ := ih k r h'
        refine ⟨c :: a, b, by rw [hab]; rfl, ?_, hka⟩
        intro x hx
        rcases List.mem_cons.mp hx with hx | hx
        · exact hx ▸ hp
        · exact hall x hx
      · rw [if_neg hp] at h'
        exact absurd h' (by simp)

theorem plusG_sound {α : Type} (p : Char → Bool) (cs : List Char)
    (k : List Char → Option α) (r : α) (h : plusG p cs k = some r) :
    ∃ a b, cs = a ++ b ∧ a ≠ [] ∧ (∀ c ∈ a, p c = true) ∧ k b = some r := by
  cases cs with
  | nil => exact absurd h (by simp [plusG])
  | cons c cs =>
    have hdef : plusG p (c :: cs) k = if p c then starG p cs k else none := rfl
    rw [hdef] at h
    by_cases hp : p c
    · rw [if_pos hp] at h
      obtain ⟨a, b, hab, hall, hk⟩ := starG_sound p cs k r h
      refine ⟨c :: a, b, by rw [hab]; rfl, by simp, ?_, hk⟩
      intro x hx
      rcases List.mem_cons.mp hx with hx | hx
      · exact hx ▸ hp
      · exact hall x hx
    · rw [if_neg hp] at h
      exact absurd h (by simp)

theorem litP_sound {α : Type} (pat cs : List Char) (k : List Char → Option α)
    (r : α) (h : litP pat cs k = some r) :
    ∃ b, cs = pat ++ b ∧ k b = some r := by
  unfold litP at h
  by_cases hp : pat.isPrefixOf cs
  · rw [if_pos hp] at h
    obtain ⟨b, hb⟩ := List.isPrefixOf_iff_prefix.mp hp
    refine ⟨b, hb.symm, ?_⟩
    have : cs.drop pat.length = b := by
      rw [← hb, List.drop_left]
    rw [← this, h]
  · rw [if_neg hp] at h
    exact absurd h (by simp)

theorem altLits_sound {α : Type} :
    ∀ (ls : List (List Char)) (cs : List Char) (k : List Char → Option α) (r : α),
      altLits ls cs k = some r →
      ∃ l ∈ ls, ∃ b, cs = l ++ b ∧ k b = some r := by
  intro ls
  induction ls with
  | nil => intro cs k r h; exact absurd h (by simp [altLits])
  | cons l ls ih =>
    intro cs k r h
    unfold altLits at h
    cases hl : litP l cs k with
    | some r' =>
      rw [hl] at h
      obtain ⟨b, hb, hk⟩ := litP_sound l cs k r' hl
      exact ⟨l, List.mem_cons_self l ls, b, hb, by rw [hk, ← h]⟩
    | none =>
      rw [hl] at h
      obtain ⟨l', hl', b, hb, hk⟩ := ih cs k r h
      exact ⟨l', List.mem_cons_of_mem l hl', b, hb, hk⟩

theorem extGroup_sound {α : Type} (bad : Char → Bool) (cs : List Char)
    (k : List Char → Option α) (r : α) (h : extGroup bad cs k = some r) :
    ∃ a ext b, cs = (a ++ '.' :: ext) ++ b ∧ a ≠ [] ∧
      (∀ c ∈ a, bad c = false) ∧ ext ∈ EXTS ∧ k b = some r := by
  unfold extGroup at h
  obtain ⟨a, b1, hab1, hane, halla, hk1⟩ := plusG_sound _ cs _ r h
  obtain ⟨b2, hb2, hk2⟩ := litP_sound _ b1 _ r hk1
  obtain ⟨ext, hext, b3, hb3, hk3⟩ := altLits_sound EXTS b2 k r hk2
  refine ⟨a, ext, b3, ?_, hane, ?_, hext, hk3⟩
  · rw [hab1, hb2, hb3]
    simp
  · intro c hc
    have := halla c hc
    simpa using this

theorem optP_sound {α : Type} (r : List Char → (List Char → Option α) → Option α)
    (cs : List Char) (k : List Char → Option α) (res : α)
    (h : optP r cs k = some res) :
    r cs k = some res ∨ k cs = some res := by
  unfold optP at h
  cases hr : r cs k with
  | some res' =>
    rw [hr] at h
    have h' : (some res' : Option α) = some res := h
    exact Or.inl h'
  | none =>
    rw [hr] at h
    exact Or.inr h

theorem withCap_extGroup_sound {α : Type} (bad : Char → Bool) (cs : List Char)
    (k : List Char → List Char → Option α) (res : α)
    (h : withCap (extGroup bad) cs k = some res) :
    ∃ a ext b, cs = (a ++ '.' :: ext) ++ b ∧ a ≠ [] ∧ ext ∈ EXTS ∧
      k (a ++ '.' :: ext) b = some res := by
  unfold withCap at h
  obtain ⟨a, ext, b, hcs, hane, _, hext, hk⟩ := extGroup_sound bad cs _ res h
  have htake : cs.take (cs.length - b.length) = a ++ '.' :: ext := by
    rw [hcs]
    have hlen : ((a ++ '.' :: ext) ++ b).length - b.length =
        (a ++ '.' :: ext).length := by
      rw [List.length_append]
      exact Nat.add_sub_cancel _ _
    rw [hlen, List.take_left]
  refine ⟨a, ext, b, hcs, hane, hext, ?_⟩
  rw [← htake]
  exact hk

theorem optP_bracket_through {α : Type} (s : List Char) (k : List Char → Option α)
    (res : α)
    (h : optP (fun u k' =>
      litP ['['] u fun u1 =>
      lazyStar (fun _ => true) u1 fun u2 =>
      litP [']'] u2 k') s k = some res) :
    ∃ t, k t = some res := by
  rcases optP_sound _ s k res h with h | h
  · obtain ⟨u1, _, h⟩ := litP_sound _ s _ res h
    obtain ⟨_, u2, _, _, h⟩ := lazyStar_sound _ u1 _ res h
    obtain ⟨t, _, h⟩ := litP_sound _ u2 _ res h
    exact ⟨t, h⟩
  · exact ⟨s, h⟩

theorem optP_word_through {α : Type} (s : List Char) (k : List Char → Option α)
    (res : α)
    (h : optP (fun u k' => plusG isWordChar u k') s k = some res) :
    ∃ t, k t = some res := by
  rcases optP_sound _ s k res h with h | h
  · obtain ⟨_, t, _, _, _, h⟩ := plusG_sound _ s _ res h
    exact ⟨t, h⟩
  · exact ⟨s, h⟩

theorem optP_hash_through {α : Type} (s : List Char) (k : List Char → Option α)
    (res : α)
    (h : optP (fun u k' => litP ['#'] u k') s k = some res) :
    ∃ t, k t = some res := by
  rcases optP_sound _ s k res h with h | h
  · obtain ⟨t, _, h⟩ := litP_sound _ s _ res h
    exact ⟨t, h⟩
  · exact ⟨s, h⟩

/-- Every successful pattern-1 match captures a path of the form
`a ++ "." ++ ext` with `a` nonempty and `ext` a recognized extension. -/
theorem matchP1_path (cs : List Char) (pb : List Char × List Char)
    (rest : List Char) (h : matchP1 cs = some (pb, rest)) :
    ∃ a ext, pb.1 = a ++ '.' :: ext ∧ a ≠ [] ∧ ext ∈ EXTS := by
  unfold matchP1 at h
  obtain ⟨s1, _, h⟩ := litP_sound _ cs _ _ h
  obtain ⟨a, ext, s2, _, hane, hext, h⟩ := withCap_extGroup_sound _ s1 _ _ h
  obtain ⟨s3, _, h⟩ := litP_sound _ s2 _ _ h
  obtain ⟨_, s4, _, _, h⟩ := starG_sound _ s3 _ _ h
  obtain ⟨s5, h⟩ := optP_bracket_through s4 _ _ h
  obtain ⟨_, s6, _, _, h⟩ := starG_sound _ s5 _ _ h
  obtain ⟨s7, _, h⟩ := litP_sound _ s6 _ _ h
  obtain ⟨s8, h⟩ := optP_word_through s7 _ _ h
  obtain ⟨_, s9, _, _, h⟩ := starG_sound _ s8 _ _ h
  obtain ⟨s10, _, h⟩ := litP_sound _ s9 _ _ h
  unfold withCap at h
  obtain ⟨_, s11, _, _, h⟩ := lazyStar_sound _ s10 _ _ h
  obtain ⟨rest', _, h⟩ := litP_sound _ s11 _ _ h
  have hinj := Option.some.inj h
  exact ⟨a, ext, (congrArg (fun z => z.1.1) hinj).symm, hane, hext⟩

/-- Every successful pattern-2 match captures a path of the form
`a ++ "." ++ ext` with `a` nonempty and `ext` a recognized extension. -/
theorem matchP2_path (cs : List Char) (pb : List Char × List Char)
    (rest : List Char) (h : matchP2 cs = some (pb, rest)) :
    ∃ a ext, pb.1 = a ++ '.' :: ext ∧ a ≠ [] ∧ ext ∈ EXTS := by
  unfold matchP2 at h
  obtain ⟨s1, _, h⟩ := litP_sound _ cs _ _ h
  obtain ⟨s2, h⟩ := optP_hash_through s1 _ _ h
  obtain ⟨_, s3, _, _, _, h⟩ := plusG_sound _ s2 _ _ h
  obtain ⟨a, ext, s4, _, hane, hext, h⟩ := withCap_extGroup_sound _ s3 _ _ h
  obtain ⟨_, s5, _, _, h⟩ := starG_sound _ s4 _ _ h
  obtain ⟨s6, _, h⟩ := litP_sound _ s5 _ _ h
  obtain ⟨s7, _, h⟩ := litP_sound _ s6 _ _ h
  obtain ⟨s8, h⟩ := optP_word_through s7 _ _ h
  obtain ⟨_, s9, _, _, h⟩ := starG_sound _ s8 _ _ h
  obtain ⟨s10, _, h⟩ := litP_sound _ s9 _ _ h
  unfold withCap at h
  obtain ⟨_, s11, _, _, h⟩ := lazyStar_sound _ s10 _ _ h
  obtain ⟨rest', _, h⟩ := litP_sound _ s11 _ _ h
  have hinj := Option.some.inj h
  exact ⟨a, ext, (congrArg (fun z => z.1.1) hinj).symm, hane, hext⟩

/-- Every successful pattern-3 match captures a path of the form
`a ++ "." ++ ext` with `a` nonempty and `ext` a recognized extension. -/
theorem matchP3_path (cs : List Char) (pb : List Char × List Char)
    (rest : List Char) (h : matchP3 cs = some (pb, rest)) :
    ∃ a ext, pb.1 = a ++ '.' :: ext ∧ a ≠ [] ∧ ext ∈ EXTS := by
  unfold matchP3 at h
  obtain ⟨s1, _, h⟩ := litP_sound _ cs _ _ h
  obtain ⟨a, ext, s2, _, hane, hext, h⟩ := withCap_extGroup_sound _ s1 _ _ h
  obtain ⟨s3, _, h⟩ := litP_sound _ s2 _ _ h
  obtain ⟨_, s4, _, _, h⟩ := starG_sound _ s3 _ _ h
  obtain ⟨s5, _, h⟩ := litP_sound _ s4 _ _ h
  obtain ⟨s6, h⟩ := optP_word_through s5 _ _ h
  obtain ⟨_, s7, _, _, h⟩ := starG_sound _ s6 _ _ h
  obtain ⟨s8, _, h⟩ := litP_sound _ s7 _ _ h
  unfold withCap at h
  obtain ⟨_, s9, _, _, h⟩ := lazyStar_sound _ s8 _ _ h
  obtain ⟨rest', _, h⟩ := litP_sound _ s9 _ _ h
  have hinj := Option.some.inj h
  exact ⟨a, ext, (congrArg (fun z => z.1.1) hinj).symm, hane, hext⟩

theorem scanA_succ (m : List Char → Option MatchRes) (fuel : Nat) (cs : List Char) :
    scanA m (fuel + 1) cs =
      (match m cs with
       | some (pb, rest) => pb :: scanA m fuel rest
       | none =>
         match cs with
         | [] => []
         | _ :: cs' => scanA m fuel cs') := rfl

/-- Scan membership: any property of single matches holds for every match
found by the scanning loop. -/
theorem scanA_prop (m : List Char → Option MatchRes)
    (P : List Char × List Char → Prop)
    (hm : ∀ cs pb rest, m cs = some (pb, rest) → P pb) :
    ∀ (fuel : Nat) (cs : List Char) (pb : List Char × List Char),
      pb ∈ scanA m fuel cs → P pb := by
  intro fuel
  induction fuel with
  | zero => intro cs pb h; exact absurd h (List.not_mem_nil pb)
  | succ fuel ih =>
    intro cs pb h
    rw [scanA_succ] at h
    cases hm1 : m cs with
    | some pr =>
      rw [hm1] at h
      rcases List.mem_cons.mp h with h | h
      · exact h ▸ hm cs pr.1 pr.2 (by rw [hm1])
      · exact ih pr.2 pb h
    | none =>
      rw [hm1] at h
      cases cs with
      | nil => exact absurd h (List.not_mem_nil pb)
      | cons c cs' => exact ih cs' pb h

theorem mem_dropWhile_of_not (p : Char → Bool) :
    ∀ (cs : List Char) (c : Char), c ∈ cs → p c = false →
      c ∈ cs.dropWhile p := by
  intro cs
  induction cs with
  | nil => intro c h; exact absurd h (List.not_mem_nil c)
  | cons x cs ih =>
    intro c hc hp
    rw [List.dropWhile_cons]
    by_cases hx : p x = true
    · rw [if_pos hx]
      rcases List.mem_cons.mp hc with hc | hc
      · rw [hc] at hp
        rw [hp] at hx
        exact absurd hx (by simp)
      · exact ih c hc hp
    · rw [if_neg hx]
      exact hc

/-- A list containing a non-whitespace character strips to a nonempty list. -/
theorem pstrip_ne_nil (cs : List Char) (c : Char) (hc : c ∈ cs)
    (hp : isPySpace c = false) : pstrip cs ≠ [] := by
  intro hcon
  unfold pstrip at hcon
  have h1 : c ∈ cs.dropWhile isPySpace := mem_dropWhile_of_not isPySpace cs c hc hp
  have h2 : c ∈ (cs.dropWhile isPySpace).reverse := List.mem_reverse.mpr h1
  have h3 : c ∈ (cs.dropWhile isPySpace).reverse.dropWhile isPySpace :=
    mem_dropWhile_of_not isPySpace _ c h2 hp
  rw [List.reverse_eq_nil_iff.mp hcon] at h3
  exact absurd h3 (List.not_mem_nil c)

theorem insertA_mem_keys {kt vt : Type} [DecidableEq kt] (d : List (kt × vt))
    (k : kt) (v : vt) (e : kt × vt) (h : e ∈ insertA d k v) :
    e.1 ∈ d.map Prod.fst ∨ e.1 = k := by
  unfold insertA at h
  by_cases ha : d.any (fun x => decide (x.1 = k)) = true
  · rw [if_pos ha] at h
    rcases List.mem_map.mp h with ⟨x, hx, hxe⟩
    by_cases hxk : x.1 = k
    · rw [if_pos hxk] at hxe
      exact Or.inr (by rw [← hxe])
    · rw [if_neg hxk] at hxe
      exact Or.inl (hxe ▸ List.mem_map_of_mem Prod.fst hx)
  · rw [if_neg ha] at h
    rcases List.mem_append.mp h with h | h
    · exact Or.inl (List.mem_map_of_mem Prod.fst h)
    · rw [List.mem_singleton.mp h]
      exact Or.inr rfl

/-- Every key of the folded dictionary is either an initial key or the
stripped path of one of the matches. -/
theorem foldl_processMatch_keys :
    ∀ (l : List (List Char × List Char)) (d : List (List Char × List Char))
      (e : List Char × List Char), e ∈ l.foldl processMatch d →
      e.1 ∈ d.map Prod.fst ∨ ∃ pb ∈ l, e.1 = pstrip pb.1 := by
  intro l
  induction l with
  | nil =>
    intro d e h
    exact Or.inl (List.mem_map_of_mem Prod.fst h)
  | cons pb l ih =>
    intro d e h
    rw [List.foldl_cons] at h
    rcases ih (processMatch d pb) e h with hk | ⟨pb', hpb', hkey⟩
    · rw [processMatch_eq] at hk
      by_cases hkeep : keepBody (pstrip pb.2) = true
      · rw [if_pos hkeep] at hk
        rcases List.mem_map.mp hk with ⟨x, hx, hxe⟩
        rcases insertA_mem_keys d (pstrip pb.1) (pstrip pb.2) x hx with hx1 | hx1
        · exact Or.inl (hxe ▸ hx1)
        · exact Or.inr ⟨pb, List.mem_cons_self pb l, by rw [← hxe, hx1]⟩
      · rw [if_neg hkeep] at hk
        exact Or.inl hk
    · exact Or.inr ⟨pb', List.mem_cons_of_mem pb hpb', hkey⟩

/-- C5 (amended): every key of the extraction result is non-empty (the
key may, however, be an absolute path). -/
theorem C5_amended (doc : String) (p c : String)
    (h : (p, c) ∈ extract_files_from_markdown doc) : p ≠ "" := by
  unfold extract_files_from_markdown at h
  rcases List.mem_map.mp h with ⟨e, he, hpe⟩
  have hkey : e.1 ∈ ([] : List (List Char × List Char)).map Prod.fst ∨
      ∃ pb ∈ allMatches doc.toList, e.1 = pstrip pb.1 :=
    foldl_processMatch_keys (allMatches doc.toList) [] e he
  rcases hkey with hk | ⟨pb, hpb, hkey⟩
  · exact absurd hk (List.not_mem_nil e.1)
  · have hshape : ∃ a ext, pb.1 = a ++ '.' :: ext ∧ a ≠ [] ∧ ext ∈ EXTS := by
      unfold allMatches at hpb
      rcases List.mem_append.mp hpb with hpb | hpb
      · rcases List.mem_append.mp hpb with hpb | hpb
        · exact scanA_prop matchP1 _
            (fun cs pb rest hm => matchP1_path cs pb rest hm) _ _ pb hpb
        · exact scanA_prop matchP2 _
            (fun cs pb rest hm => matchP2_path cs pb rest hm) _ _ pb hpb
      · exact scanA_prop matchP3 _
          (fun cs pb rest hm => matchP3_path cs pb rest hm) _ _ pb hpb
    rcases hshape with ⟨a, ext, hsh, _, _⟩
    have hne : e.1 ≠ [] := by
      rw [hkey, hsh]
      exact pstrip_ne_nil _ '.' (by simp) (by decide)
    intro hcon
    apply hne
    have hp1 : String.mk e.1 = p := congrArg Prod.fst hpe
    rw [hcon] at hp1
    exact congrArg String.toList hp1

/-- C5 witness: the theorem applied to a concrete document whose
extraction yields the key `w.md`, which is indeed non-empty. -/
theorem C5_amended_witness :
    (("w.md", "some words") ∈
      extract_files_from_markdown "**w.md**\n```\nsome words\n```") ∧
    ("w.md" : String) ≠ "" :=
  ⟨by decide,
   C5_amended "**w.md**\n```\nsome words\n```" "w.md" "some words" (by decide)⟩

/-! ### Lemmas: combinator evaluation (computing successful matches) -/

theorem litP_eval {α : Type} (pat s : List Char) (k : List Char → Option α) :
    litP pat (pat ++ s) k = k s := by
  unfold litP
  rw [if_pos (List.isPrefixOf_iff_prefix.mpr ⟨s, rfl⟩), List.drop_left]

theorem litP_not_prefix {α : Type} (pat cs : List Char) (k : List Char → Option α)
    (h : pat.isPrefixOf cs = false) : litP pat cs k = none := by
  unfold litP
  rw [if_neg]
  rw [h]
  exact Bool.false_ne_true

theorem litP_head_ne {α : Type} (p0 : Char) (pat : List Char) (u0 : Char)
    (u : List Char) (k : List Char → Option α) (h : p0 ≠ u0) :
    litP (p0 :: pat) (u0 :: u) k = none := by
  apply litP_not_prefix
  show (p0 == u0 && pat.isPrefixOf u) = false
  rw [beq_eq_false_iff_ne.mpr h]
  rfl

theorem litP_nil_r {α : Type} (p0 : Char) (pat : List Char)
    (k : List Char → Option α) : litP (p0 :: pat) [] k = none := by
  apply litP_not_prefix
  rfl

theorem starG_cons_pos {α : Type} (p : Char → Bool) (c : Char) (cs : List Char)
    (k : List Char → Option α) (h : p c = true) :
    starG p (c :: cs) k =
      match starG p cs k with
      | some r => some r
      | none => k (c :: cs) := by
  have hdef : starG p (c :: cs) k =
      if p c = true then
        (match starG p cs k with
         | some r => some r
         | none => k (c :: cs))
      else k (c :: cs) := rfl
  rw [hdef, if_pos h]

theorem starG_cons_neg {α : Type} (p : Char → Bool) (c : Char) (cs : List Char)
    (k : List Char → Option α) (h : p c = false) :
    starG p (c :: cs) k = k (c :: cs) := by
  have hdef : starG p (c :: cs) k =
      if p c = true then
        (match starG p cs k with
         | some r => some r
         | none => k (c :: cs))
      else k (c :: cs) := rfl
  rw [hdef, h, if_neg Bool.false_ne_true]

theorem plusG_cons_pos {α : Type} (p : Char → Bool) (c : Char) (cs : List Char)
    (k : List Char → Option α) (h : p c = true) :
    plusG p (c :: cs) k = starG p cs k := by
  show (if p c = true then starG p cs k else none) = starG p cs k
  rw [if_pos h]

theorem plusG_cons_neg {α : Type} (p : Char → Bool) (c : Char) (cs : List Char)
    (k : List Char → Option α) (h : p c = false) :
    plusG p (c :: cs) k = none := by
  show (if p c = true then starG p cs k else none) = none
  rw [h, if_neg Bool.false_ne_true]

theorem optP_eval_none {α : Type}
    (r : List Char → (List Char → Option α) → Option α) (cs : List Char)
    (k : List Char → Option α) (h : r cs k = none) : optP r cs k = k cs := by
  unfold optP
  rw [h]

theorem optP_eval_some {α : Type}
    (r : List Char → (List Char → Option α) → Option α) (cs : List Char)
    (k : List Char → Option α) (res : α) (h : r cs k = some res) :
    optP r cs k = some res := by
  unfold optP
  rw [h]

theorem starG_none {α : Type} (p : Char → Bool) :
    ∀ (a rest : List Char) (k : List Char → Option α),
      (∀ c ∈ a, p c = true) → starG p rest k = none →
      (∀ y, y ≠ [] → (∃ z, z ++ y = a) → k (y ++ rest) = none) →
      starG p (a ++ rest) k = none := by
  intro a
  induction a with
  | nil => intro rest k _ hrest _; exact hrest
  | cons c a ih =>
    intro rest k hall hrest hfail
    rw [List.cons_append,
      starG_cons_pos p c (a ++ rest) k (hall c (List.mem_cons_self c a))]
    have hinner : starG p (a ++ rest) k = none := by
      apply ih rest k (fun x hx => hall x (List.mem_cons_of_mem c hx)) hrest
      intro y hy ⟨z, hz⟩
      exact hfail y hy ⟨c :: z, by rw [← hz]; rfl⟩
    rw [hinner]
    exact hfail (c :: a) (by simp) ⟨[], rfl⟩

theorem starG_resolve {α : Type} (p : Char → Bool) :
    ∀ (a1 : List Char) (a2 rest : List Char) (k : List Char → Option α) (res : α),
      (∀ c ∈ a1, p c = true) → p '.' = true → (∀ c ∈ a2, p c = true) →
      starG p rest k = none →
      (∀ y, y ≠ [] → (∃ z, z ++ y = a2) → k (y ++ rest) = none) →
      k ('.' :: (a2 ++ rest)) = some res →
      starG p (a1 ++ '.' :: (a2 ++ rest)) k = some res := by
  intro a1
  induction a1 with
  | nil =>
    intro a2 rest k res _ hdot h2 hrest hfail hsucc
    rw [List.nil_append,
      starG_cons_pos p '.' (a2 ++ rest) k hdot,
      starG_none p a2 rest k h2 hrest hfail]
    exact hsucc
  | cons c a1 ih =>
    intro a2 rest k res h1 hdot h2 hrest hfail hsucc
    rw [List.cons_append,
      starG_cons_pos p c (a1 ++ '.' :: (a2 ++ rest)) k (h1 c (List.mem_cons_self c a1)),
      ih a2 rest k res (fun x hx => h1 x (List.mem_cons_of_mem c hx)) hdot h2
        hrest hfail hsucc]

theorem lazyStar_resolve {α : Type} (p : Char → Bool) :
    ∀ (a rest : List Char) (k : List Char → Option α) (res : α),
      (∀ c ∈ a, p c = true) →
      (∀ y, y ≠ [] → (∃ z, z ++ y = a) → k (y ++ rest) = none) →
      k rest = some res →
      lazyStar p (a ++ rest) k = some res := by
  intro a
  induction a with
  | nil =>
    intro rest k res _ _ hsucc
    rw [List.nil_append, lazyStar_eq, hsucc]
  | cons c a ih =>
    intro rest k res hall hfail hsucc
    rw [List.cons_append, lazyStar_eq]
    have hk : k (c :: (a ++ rest)) = none := hfail (c :: a) (by simp) ⟨[], rfl⟩
    rw [hk]
    show (if p c = true then lazyStar p (a ++ rest) k else none) = some res
    rw [if_pos (hall c (List.mem_cons_self c a))]
    apply ih rest k res (fun x hx => hall x (List.mem_cons_of_mem c hx))
    · intro y hy ⟨z, hz⟩
      exact hfail y hy ⟨c :: z, by rw [← hz]; rfl⟩
    · exact hsucc

theorem altLits_resolve {α : Type} :
    ∀ (alts : List (List Char)) (v : List Char) (k : List Char → Option α)
      (res : α) (e : List Char), e ∈ alts → litP e v k = some res →
      (∀ l ∈ alts, l ≠ e → litP l v k = none) →
      altLits alts v k = some res := by
  intro alts
  induction alts with
  | nil => intro v k res e he; exact absurd he (List.not_mem_nil e)
  | cons l ls ih =>
    intro v k res e he hsucc hfail
    unfold altLits
    by_cases hle : l = e
    · subst hle
      rw [hsucc]
    · rw [hfail l (List.mem_cons_self l ls) hle]
      have he' : e ∈ ls := by
        rcases List.mem_cons.mp he with he | he
        · exact absurd he.symm hle
        · exact he
      exact ih v k res e he' hsucc (fun x hx => hfail x (List.mem_cons_of_mem l hx))

theorem take_sub_length (X Y : List Char) :
    (X ++ Y).take ((X ++ Y).length - Y.length) = X := by
  have hlen : (X ++ Y).length - Y.length = X.length := by
    rw [List.length_append]
    exact Nat.add_sub_cancel _ _
  rw [hlen, List.take_left]

theorem scanA_nil (m : List Char → Option MatchRes) (hm : m [] = none) :
    ∀ f : Nat, scanA m f [] = [] := by
  intro f
  cases f with
  | zero => rfl
  | succ f => rw [scanA_succ, hm]

theorem scanA_all_fail (m : List Char → Option MatchRes) :
    ∀ (f : Nat) (cs : List Char), m [] = none →
      (∀ u, u ≠ [] → (∃ z, z ++ u = cs) → m u = none) → scanA m f cs = [] := by
  intro f
  induction f with
  | zero => intro cs _ _; rfl
  | succ f ih =>
    intro cs hnil h
    rw [scanA_succ]
    cases cs with
    | nil => rw [hnil]
    | cons c cs' =>
      rw [h (c :: cs') (by simp) ⟨[], rfl⟩]
      exact ih cs' hnil (fun u hu ⟨z, hz⟩ => h u hu ⟨c :: z, by rw [← hz]; rfl⟩)

/-! ### Lemmas: strip, extension alternatives, occurrence decomposition -/

theorem litP_eval_cons {α : Type} (c : Char) (s : List Char)
    (k : List Char → Option α) : litP [c] (c :: s) k = k s :=
  litP_eval [c] s k

theorem litP_eval_all {α : Type} (pat : List Char) (k : List Char → Option α) :
    litP pat pat k = k [] := by
  have h := litP_eval pat [] k
  rwa [List.append_nil] at h

theorem ws_newline_fail {α : Type} (u0 : Char) (u : List Char)
    (k : List Char → Option α) (h1 : isPySpace u0 = false) (h2 : u0 ≠ '\n') :
    starG isPySpace (u0 :: u) (fun s5 => litP ['\n'] s5 k) = none := by
  rw [starG_cons_neg _ _ _ _ h1]
  exact litP_head_ne '\n' [] u0 u k (Ne.symm h2)

theorem mem_of_suffix {c : Char} {y a : List Char} (h : ∃ z, z ++ y = a)
    (hc : c ∈ y) : c ∈ a := by
  rcases h with ⟨z, hz⟩
  rw [← hz]
  exact List.mem_append_right z hc

theorem dropWhile_eq_self_of_head (p : Char → Bool) (cs : List Char)
    (h : ∀ c, cs.head? = some c → p c = false) : cs.dropWhile p = cs := by
  cases cs with
  | nil => rfl
  | cons c cs =>
    rw [List.dropWhile_cons, h c rfl, if_neg Bool.false_ne_true]

theorem getLast?_append_right (l1 l2 : List Char) (h : l2 ≠ []) :
    (l1 ++ l2).getLast? = l2.getLast? := by
  rw [← List.head?_reverse, ← List.head?_reverse, List.reverse_append]
  cases hr : l2.reverse with
  | nil => exact absurd (List.reverse_eq_nil_iff.mp hr) h
  | cons x xs =>
    rw [List.cons_append]
    rfl

theorem mem_of_getLast?A (l : List Char) (c : Char) (h : l.getLast? = some c) :
    c ∈ l := by
  have h2 : l.reverse.head? = some c := by rw [List.head?_reverse]; exact h
  cases hr : l.reverse with
  | nil => rw [hr] at h2; exact absurd h2 (by simp)
  | cons x xs =>
    rw [hr] at h2
    have hx : x = c := Option.some.inj h2
    have hm : c ∈ l.reverse := by rw [hr, ← hx]; exact List.mem_cons_self x xs
    exact List.mem_reverse.mp hm

theorem pstrip_eq_self (cs : List Char)
    (h1 : ∀ c, cs.head? = some c → isPySpace c = false)
    (h2 : ∀ c, cs.getLast? = some c → isPySpace c = false) :
    pstrip cs = cs := by
  unfold pstrip
  rw [dropWhile_eq_self_of_head isPySpace cs h1]
  rw [dropWhile_eq_self_of_head isPySpace cs.reverse
    (fun c hc => h2 c (by rwa [List.head?_reverse] at hc))]
  exact List.reverse_reverse cs

theorem pstrip_append_newline (b : List Char) (hne : b ≠ [])
    (h1 : ∀ c, b.head? = some c → isPySpace c = false)
    (h2 : ∀ c, b.getLast? = some c → isPySpace c = false) :
    pstrip (b ++ ['\n']) = b := by
  unfold pstrip
  have hd : (b ++ ['\n']).dropWhile isPySpace = b ++ ['\n'] := by
    cases b with
    | nil => exact absurd rfl hne
    | cons x b' =>
      rw [List.cons_append, List.dropWhile_cons, h1 x rfl, if_neg Bool.false_ne_true]
  have hr : (b ++ ['\n']).reverse = '\n' :: b.reverse := by
    rw [List.reverse_append]
    rfl
  rw [hd, hr, List.dropWhile_cons, if_pos (by decide : isPySpace '\n' = true)]
  rw [dropWhile_eq_self_of_head isPySpace b.reverse
    (fun c hc => h2 c (by rwa [List.head?_reverse] at hc))]
  exact List.reverse_reverse b

theorem EXTS_facts : ∀ l ∈ EXTS, l ≠ [] ∧ ∀ c ∈ l,
    c ≠ '\n' ∧ c ≠ '*' ∧ c ≠ backtickChar ∧ c ≠ '.' ∧ c ≠ '#' ∧
      isPySpace c = false := by decide

theorem occ_cases (L1 L2 z u : List Char) (c : Char)
    (h : z ++ c :: u = L1 ++ L2) (hc : c ∉ L1) :
    ∃ z2, z = L1 ++ z2 ∧ z2 ++ c :: u = L2 := by
  rcases List.append_eq_append_iff.mp h with ⟨a', ha1, ha2⟩ | ⟨c', hc1, hc2⟩
  · cases a' with
    | nil =>
      refine ⟨[], ?_, ?_⟩
      · rw [List.append_nil, ha1, List.append_nil]
      · rw [List.nil_append] at ha2
        rw [List.nil_append, ← ha2]
    | cons x a'' =>
      exfalso
      apply hc
      rw [ha1]
      apply List.mem_append_right
      rw [List.cons_append] at ha2
      injection ha2 with hx _
      rw [hx]
      exact List.mem_cons_self x a''
  · exact ⟨c', hc1, hc2.symm⟩

/-! ### Lemmas: positive evaluation of the heading strategy -/

theorem fence_body_eval (pp X : List Char) (hX : ∀ c ∈ X, c ≠ backtickChar) :
    withCap (lazyStar (fun _ => true)) (X ++ fenceChars)
      (fun body s11 => litP fenceChars s11 fun rest => some ((pp, body), rest)) =
      some ((pp, X), []) := by
  unfold withCap
  apply lazyStar_resolve (fun _ => true) X fenceChars _ _ (fun _ _ => rfl)
  · intro y hy hsuf
    rcases y with _ | ⟨y0, y'⟩
    · exact absurd rfl hy
    · exact litP_head_ne backtickChar [backtickChar, backtickChar] y0
        (y' ++ fenceChars) _
        (Ne.symm (hX y0 (mem_of_suffix hsuf (List.mem_cons_self y0 y'))))
  · show litP fenceChars fenceChars
      (fun rest' => some ((pp,
        (X ++ fenceChars).take ((X ++ fenceChars).length - fenceChars.length)),
        rest')) = some ((pp, X), [])
    rw [litP_eval_all]
    rw [take_sub_length]

theorem p2_tail_eval (pp : List Char) (b0 : Char) (b : List Char)
    (hb0 : isPySpace b0 = false) (hbq : ∀ c ∈ b0 :: b, c ≠ backtickChar) :
    starG isPySpace
      ('\n' :: (fenceChars ++ '\n' :: (b0 :: (b ++ '\n' :: fenceChars))))
      (fun s5 => litP ['\n'] s5 fun s6 =>
       litP fenceChars s6 fun s7 =>
       optP (fun u k' => plusG isWordChar u k') s7 fun s8 =>
       starG isPySpace s8 fun s9 =>
       litP ['\n'] s9 fun s10 =>
       withCap (lazyStar (fun _ => true)) s10 fun body s11 =>
       litP fenceChars s11 fun rest =>
       some ((pp, body), rest)) =
      some ((pp, (b0 :: b) ++ ['\n']), []) := by
  have hb0n : b0 ≠ '\n' := fun hE => by
    rw [hE] at hb0
    exact absurd hb0 (by decide)
  rw [starG_cons_pos _ _ _ _ (by decide : isPySpace '\n' = true)]
  have hfa : fenceChars ++ '\n' :: (b0 :: (b ++ '\n' :: fenceChars)) =
      backtickChar :: (backtickChar :: backtickChar ::
        '\n' :: (b0 :: (b ++ '\n' :: fenceChars))) := rfl
  rw [hfa, ws_newline_fail backtickChar _ _ (by decide) (by decide)]
  show litP ['\n']
      ('\n' :: (fenceChars ++ '\n' :: (b0 :: (b ++ '\n' :: fenceChars))))
      (fun s6 =>
       litP fenceChars s6 fun s7 =>
       optP (fun u k' => plusG isWordChar u k') s7 fun s8 =>
       starG isPySpace s8 fun s9 =>
       litP ['\n'] s9 fun s10 =>
       withCap (lazyStar (fun _ => true)) s10 fun body s11 =>
       litP fenceChars s11 fun rest =>
       some ((pp, body), rest)) =
    some ((pp, (b0 :: b) ++ ['\n']), [])
  rw [litP_eval_cons]
  show litP fenceChars
      (fenceChars ++ '\n' :: (b0 :: (b ++ '\n' :: fenceChars)))
      (fun s7 =>
       optP (fun u k' => plusG isWordChar u k') s7 fun s8 =>
       starG isPySpace s8 fun s9 =>
       litP ['\n'] s9 fun s10 =>
       withCap (lazyStar (fun _ => true)) s10 fun body s11 =>
       litP fenceChars s11 fun rest =>
       some ((pp, body), rest)) =
    some ((pp, (b0 :: b) ++ ['\n']), [])
  rw [litP_eval]
  show (match
      plusG isWordChar ('\n' :: (b0 :: (b ++ '\n' :: fenceChars)))
        (fun s8 =>
         starG isPySpace s8 fun s9 =>
         litP ['\n'] s9 fun s10 =>
         withCap (lazyStar (fun _ => true)) s10 fun body s11 =>
         litP fenceChars s11 fun rest =>
         some ((pp, body), rest)) with
    | some res => some res
    | none =>
      (fun s8 =>
       starG isPySpace s8 fun s9 =>
       litP ['\n'] s9 fun s10 =>
       withCap (lazyStar (fun _ => true)) s10 fun body s11 =>
       litP fenceChars s11 fun rest =>
       some ((pp, body), rest)) ('\n' :: (b0 :: (b ++ '\n' :: fenceChars)))) =
    some ((pp, (b0 :: b) ++ ['\n']), [])
  rw [plusG_cons_neg isWordChar '\n' _ _ (by decide)]
  show starG isPySpace ('\n' :: (b0 :: (b ++ '\n' :: fenceChars)))
      (fun s9 =>
       litP ['\n'] s9 fun s10 =>
       withCap (lazyStar (fun _ => true)) s10 fun body s11 =>
       litP fenceChars s11 fun rest =>
       some ((pp, body), rest)) =
    some ((pp, (b0 :: b) ++ ['\n']), [])
  rw [starG_cons_pos _ _ _ _ (by decide : isPySpace '\n' = true)]
  rw [ws_newline_fail b0 _ _ hb0 hb0n]
  show litP ['\n'] ('\n' :: (b0 :: (b ++ '\n' :: fenceChars)))
      (fun s10 =>
       withCap (lazyStar (fun _ => true)) s10 fun body s11 =>
       litP fenceChars s11 fun rest =>
       some ((pp, body), rest)) =
    some ((pp, (b0 :: b) ++ ['\n']), [])
  rw [litP_eval_cons]
  show withCap (lazyStar (fun _ => true)) (b0 :: (b ++ '\n' :: fenceChars))
      (fun body s11 =>
       litP fenceChars s11 fun rest =>
       some ((pp, body), rest)) =
    some ((pp, (b0 :: b) ++ ['\n']), [])
  have hre : b0 :: (b ++ '\n' :: fenceChars) =
      ((b0 :: b) ++ ['\n']) ++ fenceChars := by simp
  rw [hre]
  apply fence_body_eval
  intro c hc
  rcases List.mem_append.mp hc with h | h
  · exact hbq c h
  · rw [List.mem_singleton] at h
    rw [h]
    decide

theorem alt_other_fail {α : Type} (l e r2 : List Char) (K : List Char → Option α)
    (hnl : ∀ c ∈ l, c ≠ '\n')
    (hle : l ≠ e)
    (hK : ∀ u0 u, isPySpace u0 = false → u0 ≠ '\n' → K (u0 :: u) = none)
    (hech : ∀ c ∈ e, isPySpace c = false ∧ c ≠ '\n') :
    litP l (e ++ '\n' :: r2) K = none := by
  by_cases hp : l.isPrefixOf (e ++ '\n' :: r2) = true
  · have hlit : litP l (e ++ '\n' :: r2) K = K ((e ++ '\n' :: r2).drop l.length) := by
      unfold litP
      rw [if_pos hp]
    rcases List.isPrefixOf_iff_prefix.mp hp with ⟨w, hw⟩
    have hdrop : (e ++ '\n' :: r2).drop l.length = w := by
      rw [← hw, List.drop_left]
    rw [hlit, hdrop]
    rcases List.append_eq_append_iff.mp hw with ⟨a', ha1, ha2⟩ | ⟨c', hc1, hc2⟩
    · cases a' with
      | nil =>
        rw [List.append_nil] at ha1
        exact absurd ha1.symm hle
      | cons x a'' =>
        have hx : x ∈ e := by
          rw [ha1]
          exact List.mem_append_right l (List.mem_cons_self x a'')
        rw [ha2, List.cons_append]
        exact hK x _ (hech x hx).1 (hech x hx).2
    · cases c' with
      | nil =>
        rw [List.append_nil] at hc1
        exact absurd hc1 hle
      | cons x c'' =>
        rw [List.cons_append] at hc2
        injection hc2 with hx _
        have hxl : x ∈ l := by
          rw [hc1]
          exact List.mem_append_right e (List.mem_cons_self x c'')
        exact absurd hx.symm (hnl x hxl)
  · have hp' : l.isPrefixOf (e ++ '\n' :: r2) = false := Bool.eq_false_iff.mpr hp
    exact litP_not_prefix l _ K hp'

theorem extGroup_resolve {α : Type} (bad : Char → Bool) (c0 : Char)
    (t e r2 : List Char) (K : List Char → Option α) (res : α)
    (hc0 : bad c0 = false) (ht : ∀ c ∈ t, bad c = false)
    (hdot : bad '.' = false) (hee : ∀ c ∈ e, bad c = false)
    (he : e ∈ EXTS) (hnl : bad '\n' = true)
    (hKfail : ∀ u0 u, isPySpace u0 = false → u0 ≠ '\n' → K (u0 :: u) = none)
    (hsucc : K ('\n' :: r2) = some res) :
    extGroup bad ((c0 :: t) ++ '.' :: (e ++ '\n' :: r2)) K = some res := by
  unfold extGroup
  rw [List.cons_append]
  rw [plusG_cons_pos _ _ _ _ (show (!bad c0) = true by rw [hc0]; rfl)]
  apply starG_resolve (fun c => !bad c) t e ('\n' :: r2) _ res
  · intro c hc
    show (!bad c) = true
    rw [ht c hc]
    rfl
  · show (!bad '.') = true
    rw [hdot]
    rfl
  · intro c hc
    show (!bad c) = true
    rw [hee c hc]
    rfl
  · rw [starG_cons_neg _ _ _ _ (show (!bad '\n') = false by rw [hnl]; rfl)]
    exact litP_head_ne '.' [] '\n' r2 _ (by decide)
  · intro y hy hsuf
    rcases y with _ | ⟨y0, y'⟩
    · exact absurd rfl hy
    · have hy0 : y0 ∈ e := mem_of_suffix hsuf (List.mem_cons_self y0 y')
      exact litP_head_ne '.' [] y0 (y' ++ '\n' :: r2) _
        (Ne.symm (((EXTS_facts e he).2 y0 hy0).2.2.2.1))
  · show litP ['.'] ('.' :: (e ++ '\n' :: r2)) (fun s2 => altLits EXTS s2 K) =
      some res
    rw [litP_eval_cons]
    apply altLits_resolve EXTS (e ++ '\n' :: r2) K res e he
    · rw [litP_eval]
      exact hsucc
    · intro l hl hlne
      exact alt_other_fail l e r2 K
        (fun c hc => ((EXTS_facts l hl).2 c hc).1)
        hlne hKfail
        (fun c hc => ⟨((EXTS_facts e he).2 c hc).2.2.2.2.2,
          ((EXTS_facts e he).2 c hc).1⟩)

theorem p2_group_eval (c0 : Char) (t e : List Char) (b0 : Char) (b : List Char)
    (he : e ∈ EXTS)
    (htn : ∀ c ∈ c0 :: t, c ≠ '\n')
    (hb0 : isPySpace b0 = false)
    (hbq : ∀ c ∈ b0 :: b, c ≠ backtickChar) :
    withCap (extGroup (fun c => c = '\n'))
      ((c0 :: t) ++ '.' :: (e ++ '\n' ::
        (fenceChars ++ '\n' :: (b0 :: (b ++ '\n' :: fenceChars)))))
      (fun path s4 =>
       starG isPySpace s4 fun s5 =>
       litP ['\n'] s5 fun s6 =>
       litP fenceChars s6 fun s7 =>
       optP (fun u k' => plusG isWordChar u k') s7 fun s8 =>
       starG isPySpace s8 fun s9 =>
       litP ['\n'] s9 fun s10 =>
       withCap (lazyStar (fun _ => true)) s10 fun body s11 =>
       litP fenceChars s11 fun rest =>
       some ((path, body), rest)) =
      some (((c0 :: t) ++ '.' :: e, (b0 :: b) ++ ['\n']), []) := by
  have hext := (EXTS_facts e he).2
  unfold withCap
  apply extGroup_resolve (fun c => c = '\n') c0 t e
    (fenceChars ++ '\n' :: (b0 :: (b ++ '\n' :: fenceChars)))
  · exact decide_eq_false (htn c0 (List.mem_cons_self c0 t))
  · exact fun c hc => decide_eq_false (htn c (List.mem_cons_of_mem c0 hc))
  · decide
  · exact fun c hc => decide_eq_false ((hext c hc).1)
  · exact he
  · decide
  · intro u0 u h1 h2
    exact ws_newline_fail u0 u _ h1 h2
  · have hcap : ((c0 :: t) ++ '.' :: (e ++ '\n' ::
        (fenceChars ++ '\n' :: (b0 :: (b ++ '\n' :: fenceChars))))).take
        (((c0 :: t) ++ '.' :: (e ++ '\n' ::
          (fenceChars ++ '\n' :: (b0 :: (b ++ '\n' :: fenceChars))))).length -
          ('\n' :: (fenceChars ++ '\n' :: (b0 :: (b ++ '\n' :: fenceChars)))).length) =
        (c0 :: t) ++ '.' :: e := by
      have hassoc : (c0 :: t) ++ '.' :: (e ++ '\n' ::
          (fenceChars ++ '\n' :: (b0 :: (b ++ '\n' :: fenceChars)))) =
          ((c0 :: t) ++ '.' :: e) ++ '\n' ::
            (fenceChars ++ '\n' :: (b0 :: (b ++ '\n' :: fenceChars))) := by
        simp
      rw [hassoc, take_sub_length]
    simp only [hcap]
    exact p2_tail_eval ((c0 :: t) ++ '.' :: e) b0 b hb0 hbq

theorem matchP2_heading_eval (hs : List Char) (c0 : Char) (t e : List Char)
    (b0 : Char) (b : List Char)
    (hhs : hs = ['#', '#'] ∨ hs = ['#', '#', '#'])
    (he : e ∈ EXTS)
    (htn : ∀ c ∈ c0 :: t, c ≠ '\n')
    (hc0w : isPySpace c0 = false)
    (hb0 : isPySpace b0 = false)
    (hbq : ∀ c ∈ b0 :: b, c ≠ backtickChar) :
    matchP2 (hs ++ ' ' :: ((c0 :: t) ++ '.' :: (e ++ '\n' ::
      (fenceChars ++ '\n' :: (b0 :: (b ++ '\n' :: fenceChars)))))) =
      some (((c0 :: t) ++ '.' :: e, (b0 :: b) ++ ['\n']), []) := by
  have hcore : plusG isPySpace
      (' ' :: ((c0 :: t) ++ '.' :: (e ++ '\n' ::
        (fenceChars ++ '\n' :: (b0 :: (b ++ '\n' :: fenceChars))))))
      (fun s3 =>
       withCap (extGroup (fun c => c = '\n')) s3 fun path s4 =>
       starG isPySpace s4 fun s5 =>
       litP ['\n'] s5 fun s6 =>
       litP fenceChars s6 fun s7 =>
       optP (fun u k' => plusG isWordChar u k') s7 fun s8 =>
       starG isPySpace s8 fun s9 =>
       litP ['\n'] s9 fun s10 =>
       withCap (lazyStar (fun _ => true)) s10 fun body s11 =>
       litP fenceChars s11 fun rest =>
       some ((path, body), rest)) =
      some (((c0 :: t) ++ '.' :: e, (b0 :: b) ++ ['\n']), []) := by
    rw [plusG_cons_pos _ _ _ _ (by decide : isPySpace ' ' = true)]
    rw [List.cons_append]
    rw [starG_cons_neg _ _ _ _ hc0w]
    exact p2_group_eval c0 t e b0 b he htn hb0 hbq
  rcases hhs with h | h <;> subst h
  · unfold matchP2
    rw [litP_eval]
    exact hcore
  · unfold matchP2
    have hsplit : ['#', '#', '#'] ++ ' ' :: ((c0 :: t) ++ '.' :: (e ++ '\n' ::
        (fenceChars ++ '\n' :: (b0 :: (b ++ '\n' :: fenceChars))))) =
        ['#', '#'] ++ ('#' :: ' ' :: ((c0 :: t) ++ '.' :: (e ++ '\n' ::
          (fenceChars ++ '\n' :: (b0 :: (b ++ '\n' :: fenceChars)))))) := rfl
    rw [hsplit, litP_eval]
    apply optP_eval_some
    exact Eq.trans (litP_eval_cons '#' _ _) hcore

theorem findall_P1_empty (cs : List Char) (h : ∀ c ∈ cs, c ≠ '*') :
    findall matchP1 cs = [] := by
  unfold findall
  apply scanA_all_fail matchP1 cs.length cs rfl
  intro u hu hsuf
  rcases u with _ | ⟨u0, u'⟩
  · exact absurd rfl hu
  · have hu0 : u0 ∈ cs := mem_of_suffix hsuf (List.mem_cons_self u0 u')
    exact litP_head_ne '*' ['*'] u0 u' _ (Ne.symm (h u0 hu0))

theorem matchP3_some_shape (u : List Char) (r : MatchRes)
    (h : matchP3 u = some r) :
    ∃ a ext s3, u = backtickChar :: ((a ++ '.' :: ext) ++ backtickChar :: s3) ∧
      ext ∈ EXTS := by
  unfold matchP3 at h
  obtain ⟨s1, hs1, h⟩ := litP_sound [backtickChar] u _ _ h
  obtain ⟨a, ext, s2, hdec, _, hext, h⟩ := withCap_extGroup_sound _ s1 _ _ h
  obtain ⟨s3, hs3, _⟩ := litP_sound [backtickChar] s2 _ _ h
  refine ⟨a, ext, s3, ?_, hext⟩
  rw [hs1, hdec, hs3]
  simp

theorem backtick_ctx (A B z u : List Char)
    (hA : backtickChar ∉ A) (hB : backtickChar ∉ B)
    (hAl : A.getLast? = some '\n') (hBl : B.getLast? = some '\n')
    (h : z ++ backtickChar :: u = A ++ (fenceChars ++ (B ++ fenceChars))) :
    z.getLast? = some '\n' ∨ z.getLast? = some backtickChar := by
  obtain ⟨z2, hz2, h2⟩ :=
    occ_cases A (fenceChars ++ (B ++ fenceChars)) z u backtickChar h hA
  have hfe : fenceChars ++ (B ++ fenceChars) =
      backtickChar :: (backtickChar :: (backtickChar :: (B ++ fenceChars))) := rfl
  rw [hfe] at h2
  cases z2 with
  | nil =>
    rw [List.append_nil] at hz2
    left
    rw [hz2]
    exact hAl
  | cons x1 z3 =>
    rw [List.cons_append] at h2
    injection h2 with hx1 h3
    subst hx1
    cases z3 with
    | nil =>
      right
      rw [hz2, getLast?_append_right A _ (by simp)]
      rfl
    | cons x2 z4 =>
      rw [List.cons_append] at h3
      injection h3 with hx2 h4
      subst hx2
      cases z4 with
      | nil =>
        right
        rw [hz2, getLast?_append_right A _ (by simp)]
        rfl
      | cons x3 z5 =>
        rw [List.cons_append] at h4
        injection h4 with hx3 h5
        subst hx3
        obtain ⟨z6, hz6, h6⟩ := occ_cases B fenceChars z5 u backtickChar h5 hB
        have hBne : B ≠ [] := by
          intro hBe
          rw [hBe] at hBl
          exact absurd hBl (by simp)
        cases z6 with
        | nil =>
          left
          rw [List.append_nil] at hz6
          rw [hz6] at hz2
          rw [hz2, getLast?_append_right A _ (by simp)]
          have hx : backtickChar :: backtickChar :: backtickChar :: B =
              [backtickChar, backtickChar, backtickChar] ++ B := rfl
          rw [hx, getLast?_append_right _ B hBne]
          exact hBl
        | cons x4 z7 =>
          have hfe2 : (fenceChars : List Char) =
              backtickChar :: (backtickChar :: (backtickChar :: [])) := rfl
          rw [hfe2, List.cons_append] at h6
          injection h6 with hx4 h7
          subst hx4
          cases z7 with
          | nil =>
            right
            subst hz6
            rw [hz2, getLast?_append_right A _ (by simp)]
            have hx : backtickChar :: backtickChar :: backtickChar ::
                (B ++ [backtickChar]) =
                ([backtickChar, backtickChar, backtickChar] ++ B) ++
                  [backtickChar] := by simp
            rw [hx, getLast?_append_right _ _ (by simp)]
            rfl
          | cons x5 z8 =>
            rw [List.cons_append] at h7
            injection h7 with hx5 h8
            subst hx5
            cases z8 with
            | nil =>
              right
              subst hz6
              rw [hz2, getLast?_append_right A _ (by simp)]
              have hx : backtickChar :: backtickChar :: backtickChar ::
                  (B ++ [backtickChar, backtickChar]) =
                  ([backtickChar, backtickChar, backtickChar] ++ B) ++
                    [backtickChar, backtickChar] := by simp
              rw [hx, getLast?_append_right _ _ (by simp)]
              rfl
            | cons x6 z9 =>
              rw [List.cons_append] at h8
              injection h8 with hx6 h9
              exact absurd h9 (by simp)

theorem matchP3_none_in_ctx (A B : List Char)
    (hA : backtickChar ∉ A) (hB : backtickChar ∉ B)
    (hAl : A.getLast? = some '\n') (hBl : B.getLast? = some '\n') :
    ∀ u, u ≠ [] → (∃ z, z ++ u = A ++ (fenceChars ++ (B ++ fenceChars))) →
      matchP3 u = none := by
  intro u _ hsuf
  cases hm : matchP3 u with
  | none => rfl
  | some r =>
    exfalso
    obtain ⟨a, ext, s3, hshape, hext⟩ := matchP3_some_shape u r hm
    rcases hsuf with ⟨z, hz⟩
    have hocc : (z ++ backtickChar :: (a ++ '.' :: ext)) ++ backtickChar :: s3 =
        A ++ (fenceChars ++ (B ++ fenceChars)) := by
      rw [← hz, hshape]
      simp
    have hctx := backtick_ctx A B (z ++ backtickChar :: (a ++ '.' :: ext)) s3
      hA hB hAl hBl hocc
    have hextne : ext ≠ [] := (EXTS_facts ext hext).1
    have hgl : (z ++ backtickChar :: (a ++ '.' :: ext)).getLast? =
        ext.getLast? := by
      rw [getLast?_append_right _ _ (by simp)]
      have h1 : backtickChar :: (a ++ '.' :: ext) =
          ((backtickChar :: a) ++ ['.']) ++ ext := by simp
      rw [h1, getLast?_append_right _ _ hextne]
    cases hel : ext.getLast? with
    | none =>
      cases ext with
      | nil => exact hextne rfl
      | cons x xs =>
        rw [← List.head?_reverse] at hel
        cases hrev : (x :: xs).reverse with
        | nil => exact absurd (List.reverse_eq_nil_iff.mp hrev) (by simp)
        | cons y ys =>
          rw [hrev] at hel
          exact absurd hel (by simp)
    | some c =>
      have hc : c ∈ ext := mem_of_getLast?A ext c hel
      have hfacts := (EXTS_facts ext hext).2 c hc
      rw [hgl, hel] at hctx
      rcases hctx with h | h
      · exact hfacts.1 (Option.some.inj h)
      · exact hfacts.2.2.1 (Option.some.inj h)

theorem findall_P3_empty_ctx (A B : List Char)
    (hA : backtickChar ∉ A) (hB : backtickChar ∉ B)
    (hAl : A.getLast? = some '\n') (hBl : B.getLast? = some '\n') :
    findall matchP3 (A ++ (fenceChars ++ (B ++ fenceChars))) = [] := by
  unfold findall
  apply scanA_all_fail matchP3 _ _ rfl
  exact matchP3_none_in_ctx A B hA hB hAl hBl

theorem doc_chars (hs : List Char) (c0 : Char) (t e : List Char) (b0 : Char)
    (b : List Char) (hhs : hs = ['#', '#'] ∨ hs = ['#', '#', '#']) (c : Char)
    (hc : c ∈ hs ++ ' ' :: ((c0 :: t) ++ '.' :: (e ++ '\n' ::
      (fenceChars ++ '\n' :: (b0 :: (b ++ '\n' :: fenceChars)))))) :
    c = '#' ∨ c = ' ' ∨ c ∈ c0 :: t ∨ c = '.' ∨ c ∈ e ∨ c = '\n' ∨
      c = backtickChar ∨ c ∈ b0 :: b := by
  rcases List.mem_append.mp hc with h1 | h2
  · left
    rcases hhs with hh | hh <;> subst hh <;> simpa using h1
  · rcases List.mem_cons.mp h2 with h | h3
    · exact Or.inr (Or.inl h)
    · rcases List.mem_append.mp h3 with h4 | h5
      · exact Or.inr (Or.inr (Or.inl h4))
      · rcases List.mem_cons.mp h5 with h | h6
        · exact Or.inr (Or.inr (Or.inr (Or.inl h)))
        · rcases List.mem_append.mp h6 with h7 | h8
          · exact Or.inr (Or.inr (Or.inr (Or.inr (Or.inl h7))))
          · rcases List.mem_cons.mp h8 with h | h9
            · exact Or.inr (Or.inr (Or.inr (Or.inr (Or.inr (Or.inl h)))))
            · rcases List.mem_append.mp h9 with h10 | h11
              · refine Or.inr (Or.inr (Or.inr (Or.inr (Or.inr (Or.inr
                  (Or.inl ?_))))))
                simpa [fenceChars] using h10
              · rcases List.mem_cons.mp h11 with h | h12
                · exact Or.inr (Or.inr (Or.inr (Or.inr (Or.inr (Or.inl h)))))
                · rcases List.mem_cons.mp h12 with h | h13
                  · refine Or.inr (Or.inr (Or.inr (Or.inr (Or.inr (Or.inr
                      (Or.inr ?_))))))
                    rw [h]
                    exact List.mem_cons_self b0 b
                  · rcases List.mem_append.mp h13 with h14 | h15
                    · exact Or.inr (Or.inr (Or.inr (Or.inr (Or.inr (Or.inr
                        (Or.inr (List.mem_cons_of_mem b0 h14)))))))
                    · rcases List.mem_cons.mp h15 with h | h16
                      · exact Or.inr (Or.inr (Or.inr (Or.inr (Or.inr
                          (Or.inl h)))))
                      · refine Or.inr (Or.inr (Or.inr (Or.inr (Or.inr (Or.inr
                          (Or.inl ?_))))))
                        simpa [fenceChars] using h16

theorem getLast?_cons_getLast (x : Char) (xs : List Char) :
    (x :: xs).getLast? = some ((x :: xs).getLast (List.cons_ne_nil x xs)) := by
  induction xs generalizing x with
  | nil => rfl
  | cons y ys ih =>
    rw [List.getLast?_cons_cons, ih y, List.getLast_cons (List.cons_ne_nil y ys)]

/-- C2 (amended): the heading strategy of `extract_files_from_markdown`
requires **two or three** leading `#` markers (the source regex `###?`
is a literal `##` followed by an optional third `#`), not one or two.
For every document consisting of such a heading whose text ends in a dot
and a recognized extension, immediately followed by a fenced code block,
extraction produces exactly the entry mapping the heading text to the
fenced body.  Side conditions: the heading text starts with a
non-whitespace character and contains no newline, asterisk or backtick;
the body starts and ends with non-whitespace characters, contains no
asterisk or backtick, and passes the command-block filter. -/
theorem C2_amended (hs : List Char) (c0 : Char) (t e : List Char) (b0 : Char)
    (b : List Char)
    (hhs : hs = ['#', '#'] ∨ hs = ['#', '#', '#'])
    (he : e ∈ EXTS)
    (hc0w : isPySpace c0 = false)
    (ht : ∀ c ∈ c0 :: t, c ≠ '\n' ∧ c ≠ '*' ∧ c ≠ backtickChar)
    (hb : ∀ c ∈ b0 :: b, c ≠ '*' ∧ c ≠ backtickChar)
    (hb0 : isPySpace b0 = false)
    (hbl : isPySpace ((b0 :: b).getLast (List.cons_ne_nil b0 b)) = false)
    (hkeep : keepBody (b0 :: b) = true) :
    extractL (hs ++ ' ' :: ((c0 :: t) ++ '.' :: (e ++ '\n' ::
      (fenceChars ++ '\n' :: (b0 :: (b ++ '\n' :: fenceChars)))))) =
      [((c0 :: t) ++ '.' :: e, b0 :: b)] := by
  have htn : ∀ c ∈ c0 :: t, c ≠ '\n' := fun c hc => (ht c hc).1
  have hbq : ∀ c ∈ b0 :: b, c ≠ backtickChar := fun c hc => (hb c hc).2
  have hext := (EXTS_facts e he).2
  have hene : e ≠ [] := (EXTS_facts e he).1
  have hm2 := matchP2_heading_eval hs c0 t e b0 b hhs he htn hc0w hb0 hbq
  have hstar : ∀ c ∈ hs ++ ' ' :: ((c0 :: t) ++ '.' :: (e ++ '\n' ::
      (fenceChars ++ '\n' :: (b0 :: (b ++ '\n' :: fenceChars))))), c ≠ '*' := by
    intro c hc
    rcases doc_chars hs c0 t e b0 b hhs c hc with h | h | h | h | h | h | h | h
    · subst h; decide
    · subst h; decide
    · exact (ht c h).2.1
    · subst h; decide
    · exact (hext c h).2.1
    · subst h; decide
    · subst h; decide
    · exact (hb c h).1
  have hfind1 : findall matchP1 (hs ++ ' ' :: ((c0 :: t) ++ '.' :: (e ++ '\n' ::
      (fenceChars ++ '\n' :: (b0 :: (b ++ '\n' :: fenceChars)))))) = [] :=
    findall_P1_empty _ hstar
  have hAmem : ∀ c ∈ hs ++ (' ' :: (((c0 :: t) ++ '.' :: e) ++ ['\n'])),
      c = '#' ∨ c = ' ' ∨ c ∈ c0 :: t ∨ c = '.' ∨ c ∈ e ∨ c = '\n' := by
    intro c hc
    rcases List.mem_append.mp hc with h1 | h2
    · left
      rcases hhs with hh | hh <;> subst hh <;> simpa using h1
    · rcases List.mem_cons.mp h2 with h | h3
      · exact Or.inr (Or.inl h)
      · rcases List.mem_append.mp h3 with h4 | h5
        · rcases List.mem_append.mp h4 with h6 | h7
          · exact Or.inr (Or.inr (Or.inl h6))
          · rcases List.mem_cons.mp h7 with h | h8
            · exact Or.inr (Or.inr (Or.inr (Or.inl h)))
            · exact Or.inr (Or.inr (Or.inr (Or.inr (Or.inl h8))))
        · rw [List.mem_singleton] at h5
          exact Or.inr (Or.inr (Or.inr (Or.inr (Or.inr h5))))
  have hA : backtickChar ∉ (hs ++ (' ' :: (((c0 :: t) ++ '.' :: e) ++ ['\n']))) := by
    intro hbt
    rcases hAmem backtickChar hbt with h | h | h | h | h | h
    · exact absurd h (by decide)
    · exact absurd h (by decide)
    · exact (ht backtickChar h).2.2 rfl
    · exact absurd h (by decide)
    · exact (hext backtickChar h).2.2.1 rfl
    · exact absurd h (by decide)
  have hAl : (hs ++ (' ' :: (((c0 :: t) ++ '.' :: e) ++ ['\n']))).getLast? =
      some '\n' := by
    rw [getLast?_append_right _ _ (by simp)]
    have h1 : ' ' :: (((c0 :: t) ++ '.' :: e) ++ ['\n']) =
        (' ' :: ((c0 :: t) ++ '.' :: e)) ++ ['\n'] := by simp
    rw [h1, getLast?_append_right _ _ (by simp)]
    rfl
  have hB : backtickChar ∉ ('\n' :: (b0 :: (b ++ ['\n']))) := by
    intro hbt
    rcases List.mem_cons.mp hbt with h | h2
    · exact absurd h (by decide)
    · rcases List.mem_cons.mp h2 with h | h3
      · exact hbq b0 (List.mem_cons_self b0 b) h.symm
      · rcases List.mem_append.mp h3 with h4 | h5
        · exact hbq backtickChar (List.mem_cons_of_mem b0 h4) rfl
        · rw [List.mem_singleton] at h5
          exact absurd h5 (by decide)
  have hBl : ('\n' :: (b0 :: (b ++ ['\n']))).getLast? = some '\n' := by
    have h1 : '\n' :: (b0 :: (b ++ ['\n'])) = ('\n' :: b0 :: b) ++ ['\n'] := by
      simp
    rw [h1, getLast?_append_right _ _ (by simp)]
    rfl
  have hdoceq : hs ++ ' ' :: ((c0 :: t) ++ '.' :: (e ++ '\n' ::
      (fenceChars ++ '\n' :: (b0 :: (b ++ '\n' :: fenceChars))))) =
      (hs ++ (' ' :: (((c0 :: t) ++ '.' :: e) ++ ['\n']))) ++
        (fenceChars ++ (('\n' :: (b0 :: (b ++ ['\n']))) ++ fenceChars)) := by
    simp
  have hfind3 : findall matchP3 (hs ++ ' ' :: ((c0 :: t) ++ '.' :: (e ++ '\n' ::
      (fenceChars ++ '\n' :: (b0 :: (b ++ '\n' :: fenceChars)))))) = [] := by
    rw [hdoceq]
    exact findall_P3_empty_ctx _ _ hA hB hAl hBl
  have hfind2 : findall matchP2 (hs ++ ' ' :: ((c0 :: t) ++ '.' :: (e ++ '\n' ::
      (fenceChars ++ '\n' :: (b0 :: (b ++ '\n' :: fenceChars)))))) =
      [((c0 :: t) ++ '.' :: e, (b0 :: b) ++ ['\n'])] := by
    unfold findall
    rcases hhs with hh | hh <;> subst hh
    · have hshape : (['#', '#'] : List Char) ++ ' ' :: ((c0 :: t) ++ '.' ::
          (e ++ '\n' :: (fenceChars ++ '\n' :: (b0 :: (b ++ '\n' :: fenceChars))))) =
          '#' :: (['#'] ++ ' ' :: ((c0 :: t) ++ '.' ::
          (e ++ '\n' :: (fenceChars ++ '\n' :: (b0 :: (b ++ '\n' :: fenceChars)))))) :=
        rfl
      rw [hshape, List.length_cons, scanA_succ]
      have hm2' : matchP2 ('#' :: (['#'] ++ ' ' :: ((c0 :: t) ++ '.' ::
          (e ++ '\n' :: (fenceChars ++ '\n' :: (b0 :: (b ++ '\n' :: fenceChars))))))) =
          some (((c0 :: t) ++ '.' :: e, (b0 :: b) ++ ['\n']), []) := hm2
      rw [hm2']
      show ((c0 :: t) ++ '.' :: e, (b0 :: b) ++ ['\n']) ::
          scanA matchP2 (['#'] ++ ' ' :: ((c0 :: t) ++ '.' ::
            (e ++ '\n' :: (fenceChars ++ '\n' ::
              (b0 :: (b ++ '\n' :: fenceChars)))))).length [] =
          [((c0 :: t) ++ '.' :: e, (b0 :: b) ++ ['\n'])]
      rw [scanA_nil matchP2 rfl]
    · have hshape : (['#', '#', '#'] : List Char) ++ ' ' :: ((c0 :: t) ++ '.' ::
          (e ++ '\n' :: (fenceChars ++ '\n' :: (b0 :: (b ++ '\n' :: fenceChars))))) =
          '#' :: (['#', '#'] ++ ' ' :: ((c0 :: t) ++ '.' ::
          (e ++ '\n' :: (fenceChars ++ '\n' :: (b0 :: (b ++ '\n' :: fenceChars)))))) :=
        rfl
      rw [hshape, List.length_cons, scanA_succ]
      have hm2' : matchP2 ('#' :: (['#', '#'] ++ ' ' :: ((c0 :: t) ++ '.' ::
          (e ++ '\n' :: (fenceChars ++ '\n' :: (b0 :: (b ++ '\n' :: fenceChars))))))) =
          some (((c0 :: t) ++ '.' :: e, (b0 :: b) ++ ['\n']), []) := hm2
      rw [hm2']
      show ((c0 :: t) ++ '.' :: e, (b0 :: b) ++ ['\n']) ::
          scanA matchP2 (['#', '#'] ++ ' ' :: ((c0 :: t) ++ '.' ::
            (e ++ '\n' :: (fenceChars ++ '\n' ::
              (b0 :: (b ++ '\n' :: fenceChars)))))).length [] =
          [((c0 :: t) ++ '.' :: e, (b0 :: b) ++ ['\n'])]
      rw [scanA_nil matchP2 rfl]
  unfold extractL allMatches
  rw [hfind1, hfind2, hfind3, List.nil_append, List.append_nil]
  show processMatch [] ((c0 :: t) ++ '.' :: e, (b0 :: b) ++ ['\n']) =
    [((c0 :: t) ++ '.' :: e, b0 :: b)]
  rw [processMatch_eq]
  show (if keepBody (pstrip ((b0 :: b) ++ ['\n'])) then
      insertA [] (pstrip ((c0 :: t) ++ '.' :: e)) (pstrip ((b0 :: b) ++ ['\n']))
    else []) = [((c0 :: t) ++ '.' :: e, b0 :: b)]
  have hps2 : pstrip ((b0 :: b) ++ ['\n']) = b0 :: b := by
    apply pstrip_append_newline (b0 :: b) (List.cons_ne_nil b0 b)
    · intro c hc
      have hcb : b0 = c := Option.some.inj hc
      rw [← hcb]
      exact hb0
    · intro c hc
      rw [getLast?_cons_getLast b0 b] at hc
      rw [← Option.some.inj hc]
      exact hbl
  have hps1 : pstrip ((c0 :: t) ++ '.' :: e) = (c0 :: t) ++ '.' :: e := by
    apply pstrip_eq_self
    · intro c hc
      have hcb : c0 = c := Option.some.inj hc
      rw [← hcb]
      exact hc0w
    · intro c hc
      rw [getLast?_append_right (c0 :: t) ('.' :: e) (by simp)] at hc
      have h2 : ('.' :: e : List Char) = ['.'] ++ e := rfl
      rw [h2, getLast?_append_right ['.'] e hene] at hc
      exact (hext c (mem_of_getLast?A e c hc)).2.2.2.2.2
  rw [hps1, hps2, hkeep, if_pos rfl]
  simp [insertA]

theorem C2_amended_witness :
    keepBody ('h' :: "ello".toList) = true ∧
    extractL (['#', '#'] ++ ' ' :: (('a' :: "pp".toList) ++ '.' ::
      ("py".toList ++ '\n' :: (fenceChars ++ '\n' ::
        ('h' :: ("ello".toList ++ '\n' :: fenceChars)))))) =
      [(('a' :: "pp".toList) ++ '.' :: "py".toList, 'h' :: "ello".toList)] :=
  ⟨by decide,
   C2_amended ['#', '#'] 'a' "pp".toList "py".toList 'h' "ello".toList
     (Or.inl rfl) (by decide) (by decide) (by decide) (by decide) (by decide)
     (by decide) (by decide)⟩
